import Mathlib

/-!
Shallow embedding of the `conform` form-state library core
(`packages/conform-dom/index.ts`, which contains two historical revisions of
the module separated by a document marker: the newer revision defines
`getPaths`/`getName`/`setValue`/`serializeListCommand`/`parseListCommand`/
`applyListCommand`/`parse`, the older one defines `transform`/
`applyControlCommand` and its own `parse`).

Modelling conventions:
* JavaScript strings are Lean `String`s, processed as `List Char`.
* JavaScript numbers are modelled as exact integers (`Nat`/`Int`); the claims
  under verification only involve integer indices and digit strings small
  enough that IEEE-754 rounding is irrelevant.
* The platform primitives used by the source (`String.prototype.split`,
  `RegExp.exec`, `JSON.stringify`, `JSON.parse`, `Array.prototype.splice`,
  `FormData`) are modelled faithfully at the level of detail the source
  exercises; host-generated exception messages (e.g. `SyntaxError` texts) are
  modelled by placeholder strings, since the source never inspects them.
-/

/-- One step of a decoded field path: `getPaths` returns
`Array<string | number>`, i.e. each element is either a string key or a
numeric index. -/
inductive Step where
  | key (k : String) : Step
  | idx (n : Nat) : Step
  deriving Repr, DecidableEq

/-- JavaScript `\w` character class (used by the pattern
`/(\w+)\[(\d+)\]/` in `getPaths`): ASCII letters, digits and underscore. -/
def wordChar (c : Char) : Bool :=
  c.isAlphanum || c = '_'

/-- `name.split('.')` on the character list: split at every `'.'`.
`[]` (the empty string) splits to `[[]]`, matching JavaScript
`''.split('.') == ['']`. -/
def splitDot : List Char → List (List Char)
  | [] => [[]]
  | c :: cs =>
    if c = '.' then [] :: splitDot cs
    else
      match splitDot cs with
      | [] => [[c]]
      | s :: ss => (c :: s) :: ss

/-- Attempt to match `(\w+)\[(\d+)\]` anchored at the start of `cs`
(with the regex engine's backtracking taken into account: since `[` is not a
word character, `\w+` must consume the entire maximal word run, and since `]`
is not a digit, `\d+` must consume the entire maximal digit run).
Returns the two capture groups. -/
def matchFrom (cs : List Char) : Option (List Char × List Char) :=
  let run := cs.takeWhile wordChar
  if run.isEmpty then none
  else
    match cs.drop run.length with
    | '[' :: rest =>
      let ds := rest.takeWhile Char.isDigit
      if ds.isEmpty then none
      else
        match rest.drop ds.length with
        | ']' :: _ => some (run, ds)
        | _ => none
    | _ => none

/-- `pattern.exec(key)` for `pattern = /(\w+)\[(\d+)\]/`: the leftmost match
in the string, scanning start positions left to right. -/
def execPattern : List Char → Option (List Char × List Char)
  | [] => none
  | c :: cs =>
    match matchFrom (c :: cs) with
    | some r => some r
    | none => execPattern cs

/-- `Number(s)` on a digit-only string (the second capture group is all
digits, so this is exact decimal interpretation). -/
def digitsToNat (ds : List Char) : Nat :=
  ds.foldl (fun a c => a * 10 + (c.toNat - 48)) 0

/-- Fuel-driven helper for `natDigits` (structural recursion on the fuel so
that the definition reduces inside the kernel; the fuel is always
sufficient at the call site). -/
def natDigitsAux : Nat → Nat → List Char
  | _, 0 => []
  | n, fuel + 1 =>
    if n < 10 then [Nat.digitChar n]
    else natDigitsAux (n / 10) fuel ++ [Nat.digitChar (n % 10)]

/-- Decimal digits of a natural number, as JavaScript renders an integer
(`String(n)` / template interpolation). -/
def natDigits (n : Nat) : List Char :=
  natDigitsAux n (n + 1)

/-- The steps contributed by one dot-separated segment of a field name:
the `flatMap` body of `getPaths`. -/
def segSteps (seg : List Char) : List Step :=
  match execPattern seg with
  | none => [Step.key (String.mk seg)]
  | some (k, ds) => [Step.key (String.mk k), Step.idx (digitsToNat ds)]

/-- `getPaths` (identical in both revisions of the source): decode a field
name into a path.  `!name` is true exactly for the empty string. -/
def getPaths (name : String) : List Step :=
  if name = "" then []
  else (splitDot name.data).flatMap segSteps

/-- The reducer of `getName`.  For a key step, `name === '' || path === ''`
concatenates without a separator; for an index step only `name === ''` can
hold (a number is never `''`), in which case the index is rendered bare
(JavaScript `[name, path].join('')` stringifies the number). -/
def getNameStep (name : String) (p : Step) : String :=
  match p with
  | Step.key k => if name = "" || k = "" then name ++ k else name ++ "." ++ k
  | Step.idx n =>
    if name = "" then name ++ String.mk (natDigits n)
    else name ++ "[" ++ String.mk (natDigits n) ++ "]"

/-- `getName` (identical in both revisions): encode a path into a field
name by reducing over the steps. -/
def getName (paths : List Step) : String :=
  paths.foldl getNameStep ""

-- Sanity checks on the codec model.
example : getPaths "tasks[0].content" =
    [Step.key "tasks", Step.idx 0, Step.key "content"] := by decide
example : getPaths "a..b" = [Step.key "a", Step.key "", Step.key "b"] := by decide
example : getPaths "a[0]b" = [Step.key "a", Step.idx 0] := by decide
example : getPaths "[1]x" = [Step.key "[1]x"] := by decide
example : getName [Step.key "tasks", Step.idx 0, Step.key "content"] =
    "tasks[0].content" := by decide
example : getName [Step.idx 2, Step.key "a"] = "2.a" := by decide

/-- Runtime JavaScript values as the source manipulates them: form-entry
scalars (strings and `File`s, the latter kept opaque up to a name), the
containers built by the tree builder, and the JSON values produced by
`JSON.parse` (`null`, booleans, numbers).  Numbers are modelled as exact
integers.  `undef` is JavaScript `undefined`. -/
inductive JsVal where
  | undef : JsVal
  | null : JsVal
  | bool (b : Bool) : JsVal
  | num (n : Int) : JsVal
  | str (s : String) : JsVal
  | file (name : String) : JsVal
  | arr (elems : List JsVal) : JsVal
  | obj (fields : List (String × JsVal)) : JsVal
  deriving Repr

/-- JavaScript truthiness (`if (x)`): `undefined`, `null`, `false`, `0` and
`''` are falsy; every object (arrays, plain objects, `File`s) is truthy. -/
def truthy : JsVal → Bool
  | .undef => false
  | .null => false
  | .bool b => b
  | .num n => n != 0
  | .str s => s ≠ ""
  | .file _ => true
  | .arr _ => true
  | .obj _ => true

/-- JavaScript nullish test (the `??` operator): `undefined` or `null`. -/
def nullish : JsVal → Bool
  | .undef => true
  | .null => true
  | _ => false

/-- A string key is an array index in JavaScript exactly when it is the
canonical decimal representation of a non-negative integer. -/
def keyToIdx (k : String) : Option Nat :=
  let m := digitsToNat k.data
  if k.data = natDigits m then some m else none

/-- Update the first binding of `k` in place, or append a new binding:
JavaScript object assignment `o[k] = x` (property insertion order is
preserved, as `JSON.stringify` and `Object.keys` observe it). -/
def setField : List (String × JsVal) → String → JsVal → List (String × JsVal)
  | [], k, x => [(k, x)]
  | (k', v') :: rest, k, x =>
    if k' = k then (k, x) :: rest else (k', v') :: setField rest k x

/-- JavaScript array element assignment `a[n] = x`: in-range indices are
overwritten; an out-of-range index extends the array, with holes (read back
as `undefined`) in between. -/
def arrSet (xs : List JsVal) (n : Nat) (x : JsVal) : List JsVal :=
  if n < xs.length then xs.set n x
  else xs ++ List.replicate (n - xs.length) .undef ++ [x]

/-- Property read `v[step]` as the source's walks perform it.  Reading any
property of `undefined`/`null` would throw in JavaScript, but both walks in
the source guard against it (`pointer != null`, `break` on `undefined`), so
the `undef` result for those cases is never observed; reads of
non-index properties of arrays/strings other than `length`, and of `File`
properties, are modelled as `undefined` because the source never uses them. -/
def jsGetProp (v : JsVal) (s : Step) : JsVal :=
  match v, s with
  | .obj kvs, .key k => (kvs.lookup k).getD .undef
  | .obj kvs, .idx n => (kvs.lookup (String.mk (natDigits n))).getD .undef
  | .arr xs, .idx n => xs.getD n .undef
  | .arr xs, .key k =>
    if k = "length" then .num xs.length
    else
      match keyToIdx k with
      | some n => xs.getD n .undef
      | none => .undef
  | .str s', .idx n =>
    match s'.data.get? n with
    | some c => .str (String.mk [c])
    | none => .undef
  | .str s', .key k =>
    if k = "length" then .num s'.data.length
    else
      match keyToIdx k with
      | some n =>
        match s'.data.get? n with
        | some c => .str (String.mk [c])
        | none => .undef
      | none => .undef
  | _, _ => JsVal.undef

/-- Property write `v[step] = x` as the source's walks perform it (the
source is an ES module, hence strict mode: assigning a property of a
primitive throws `TypeError`).  Assignments to `File` objects succeed in
JavaScript by attaching an expando property which the source never reads
back, so they are modelled as leaving the value unchanged; so is the
(never exercised by the claims) assignment to a non-index array property. -/
def jsSetProp (v : JsVal) (s : Step) (x : JsVal) : Except String JsVal :=
  match v, s with
  | .obj kvs, .key k => .ok (.obj (setField kvs k x))
  | .obj kvs, .idx n => .ok (.obj (setField kvs (String.mk (natDigits n)) x))
  | .arr xs, .idx n => .ok (.arr (arrSet xs n x))
  | .arr xs, .key k =>
    match keyToIdx k with
    | some n => .ok (.arr (arrSet xs n x))
    | none => .ok (.arr xs)
  | .file name, _ => .ok (.file name)
  | _, _ => .error "TypeError: Cannot create property on a primitive"

/-- `setValue` (newer revision, lines 181–202): walk `paths` through
`target`, creating missing intermediate containers (`[]` when the *next*
step is a number, `{}` otherwise), and replace the leaf by
`valueFn(previousLeaf)`.  The source mutates in place; this model returns
the updated root together with the pending exception, if any (on an
exception the already-performed intermediate mutations are kept, as in the
source). -/
def setValue (target : JsVal) (paths : List Step)
    (valueFn : JsVal → Except String JsVal) : JsVal × Option String :=
  match paths, target with
  | [], target => (target, none)
  | [p], target =>
    match valueFn (jsGetProp target p) with
    | .error e => (target, some e)
    | .ok nv =>
      match jsSetProp target p nv with
      | .error e => (target, some e)
      | .ok v' => (v', none)
  | p :: q :: rest, target =>
    let c0 := jsGetProp target p
    let child :=
      if nullish c0 then
        match q with
        | .idx _ => JsVal.arr []
        | .key _ => JsVal.obj []
      else c0
    match jsSetProp target p child with
    | .error e => (target, some e)
    | .ok v1 =>
      match setValue child (q :: rest) valueFn with
      | (child', err) =>
        match jsSetProp v1 p child' with
        | .error e => (v1, some e)
        | .ok v2 => (v2, err)

/-- The `valueFn` of the newer `parse` (lines 267–278): reject a second
write to a leaf that already holds a truthy value, keep `File` entries
as they are, and normalise the empty string to `undefined`. -/
def entryValueFn (entry : JsVal) (prev : JsVal) : Except String JsVal :=
  if truthy prev then .error "Entry with the same name is not supported"
  else
    match entry with
    | .str s => .ok (if s = "" then .undef else .str s)
    | e => .ok e

/-- The entry loop of the newer `parse`: fold the flat entries into the
structured value, stopping at the first exception. -/
def buildValue : JsVal → List (String × JsVal) → JsVal × Option String
  | v, [] => (v, none)
  | v, (name, ev) :: rest =>
    match setValue v (getPaths name) (entryValueFn ev) with
    | (v', none) => buildValue v' rest
    | (v', some e) => (v', some e)

/-- The `value === ''` test of `transform` (only a string compares
strictly-equal to the empty string). -/
def skipEntry : JsVal → Bool
  | .str s => s = ""
  | _ => false

/-- `transform` (older revision, lines 533–573): same walking loop as
`setValue` inlined (identical pointer walk, so the model reuses `setValue`),
but entries whose value is the empty string are skipped entirely and the
leaf is overwritten unconditionally.  `transform` is *not* wrapped in a
`try` by the older `parse`, so a pending exception escapes. -/
def transform (entries : List (String × JsVal)) : JsVal × Option String :=
  go (.obj []) entries
where
  go : JsVal → List (String × JsVal) → JsVal × Option String
  | v, [] => (v, none)
  | v, (name, ev) :: rest =>
    if skipEntry ev then go v rest
    else
      match setValue v (getPaths name) (fun _ => .ok ev) with
      | (v', none) => go v' rest
      | (v', some e) => (v', some e)

-- Sanity checks on the tree builder.
example :
    buildValue (.obj [])
      [("tasks[0].content", .str "buy milk"), ("tasks[0].completed", .str "yes")] =
    (.obj [("tasks", .arr [.obj [("content", .str "buy milk"),
      ("completed", .str "yes")]])], none) := by rfl
example :
    buildValue (.obj []) [("a", .str "1"), ("a", .str "2")] =
    (.obj [("a", .str "1")], some "Entry with the same name is not supported") := by rfl
example :
    transform [("a", .str "1"), ("a", .str "2")] = (.obj [("a", .str "2")], none) := by rfl

/-- One character of a JSON string literal as `JSON.stringify` emits it:
quote, backslash and the named control escapes, `\u00xx` (lowercase hex) for
the remaining control characters, everything else verbatim. -/
def escapeChar (c : Char) : List Char :=
  if c = '\"' then ['\\', '\"']
  else if c = '\\' then ['\\', '\\']
  else if c = '\x08' then ['\\', 'b']
  else if c = '\x0c' then ['\\', 'f']
  else if c = '\n' then ['\\', 'n']
  else if c = '\r' then ['\\', 'r']
  else if c = '\t' then ['\\', 't']
  else if c.toNat < 32 then
    ['\\', 'u', '0', '0', Nat.digitChar (c.toNat / 16), Nat.digitChar (c.toNat % 16)]
  else [c]

/-- A JSON string literal for `s`. -/
def strLit (s : String) : List Char :=
  '\"' :: s.data.flatMap escapeChar ++ ['\"']

/-- Decimal rendering of an integer (`JSON.stringify` of a number; the model
restricts JavaScript numbers to integers). -/
def intRepr (n : Int) : List Char :=
  if n < 0 then '-' :: natDigits (-n).toNat else natDigits n.toNat

mutual

/-- `JSON.stringify`: `undefined` stringifies to nothing (`none`), a `File`
has no enumerable own properties and stringifies to `"{}"`. -/
def stringifyVal : JsVal → Option (List Char)
  | .undef => none
  | .null => some "null".data
  | .bool b => some (if b then "true".data else "false".data)
  | .num n => some (intRepr n)
  | .str s => some (strLit s)
  | .file _ => some ['\x7b', '\x7d']
  | .arr xs => some ('[' :: stringifyItems xs ++ [']'])
  | .obj kvs => some ('\x7b' :: stringifyFields kvs ++ ['\x7d'])

/-- Array elements, comma-separated; an element that does not stringify
(`undefined`) is emitted as `null`, as `JSON.stringify` does. -/
def stringifyItems : List JsVal → List Char
  | [] => []
  | [x] => (stringifyVal x).getD "null".data
  | x :: y :: rest =>
    ((stringifyVal x).getD "null".data) ++ ',' :: stringifyItems (y :: rest)

/-- Object fields, comma-separated in property order; a field whose value
does not stringify (`undefined`) is skipped, as `JSON.stringify` does. -/
def stringifyFields : List (String × JsVal) → List Char
  | [] => []
  | (k, v) :: rest =>
    match stringifyVal v with
    | none => stringifyFields rest
    | some sv =>
      match stringifyFields rest with
      | [] => strLit k ++ ':' :: sv
      | r => (strLit k ++ ':' :: sv) ++ ',' :: r

end

mutual

/-- Values on which `JSON.parse ∘ JSON.stringify` can be the identity:
no `undefined` and no `File` anywhere. -/
def isPure : JsVal → Bool
  | .undef => false
  | .file _ => false
  | .null => true
  | .bool _ => true
  | .num _ => true
  | .str _ => true
  | .arr xs => isPureItems xs
  | .obj kvs => isPureFields kvs

def isPureItems : List JsVal → Bool
  | [] => true
  | x :: xs => isPure x && isPureItems xs

def isPureFields : List (String × JsVal) → Bool
  | [] => true
  | (_, v) :: kvs => isPure v && isPureFields kvs

end

/-- JSON insignificant whitespace. -/
def jsonWs (c : Char) : Bool :=
  c = ' ' || c = '\t' || c = '\n' || c = '\r'

/-- Skip insignificant whitespace. -/
def skipWs (cs : List Char) : List Char :=
  cs.dropWhile jsonWs

/-- Value of a hexadecimal digit. -/
def hexVal (c : Char) : Option Nat :=
  if '0' ≤ c ∧ c ≤ '9' then some (c.toNat - 48)
  else if 'a' ≤ c ∧ c ≤ 'f' then some (c.toNat - 87)
  else if 'A' ≤ c ∧ c ≤ 'F' then some (c.toNat - 55)
  else none

/-- Decode a single-character JSON escape. -/
def escDecode (e : Char) : Option Char :=
  if e = '\"' then some '\"'
  else if e = '\\' then some '\\'
  else if e = '/' then some '/'
  else if e = 'b' then some '\x08'
  else if e = 'f' then some '\x0c'
  else if e = 'n' then some '\n'
  else if e = 'r' then some '\r'
  else if e = 't' then some '\t'
  else none

/-- Parse the body of a JSON string literal (after the opening quote) up to
and including the closing quote; returns the decoded characters and the
remaining input.  (`\uXXXX` escapes of surrogate code points, which Lean's
`Char` cannot represent, decode to `Char.ofNat`'s fallback; `stringify`
never emits them, and no claim exercises them.) -/
def parseStrChars : List Char → Option (List Char × List Char)
  | [] => none
  | '\"' :: rest => some ([], rest)
  | '\\' :: 'u' :: h1 :: h2 :: h3 :: h4 :: rest3 =>
    match hexVal h1, hexVal h2, hexVal h3, hexVal h4 with
    | some a, some b, some c', some d =>
      (parseStrChars rest3).map
        (fun r => (Char.ofNat (((a * 16 + b) * 16 + c') * 16 + d) :: r.1, r.2))
    | _, _, _, _ => none
  | '\\' :: 'u' :: _ => none
  | '\\' :: e :: rest2 =>
    match escDecode e with
    | some c' => (parseStrChars rest2).map (fun r => (c' :: r.1, r.2))
    | none => none
  | ['\\'] => none
  | c :: rest =>
    if c.toNat < 32 then none
    else (parseStrChars rest).map (fun r => (c :: r.1, r.2))

/-- Parse an unsigned JSON integer (no leading zeros). -/
def parseNatPart (cs : List Char) : Option (Nat × List Char) :=
  match cs.takeWhile Char.isDigit with
  | [] => none
  | '0' :: _ :: _ => none
  | ds => some (digitsToNat ds, cs.drop ds.length)

/-- Parse a JSON number (the model restricts numbers to integers: no
fraction or exponent part, see the header). -/
def parseNum (cs : List Char) : Option (Int × List Char) :=
  match cs with
  | '-' :: rest => (parseNatPart rest).map (fun r => (-(r.1 : Int), r.2))
  | _ => (parseNatPart cs).map (fun r => ((r.1 : Int), r.2))

mutual

/-- Recursive-descent JSON value parser; the fuel argument makes the
recursion structural and is always supplied amply by `parseJson`. -/
def parseVal : Nat → List Char → Option (JsVal × List Char)
  | 0, _ => none
  | fuel + 1, cs =>
    match skipWs cs with
    | [] => none
    | c :: rest =>
      if c = 'n' then
        match rest with
        | 'u' :: 'l' :: 'l' :: r => some (.null, r)
        | _ => none
      else if c = 't' then
        match rest with
        | 'r' :: 'u' :: 'e' :: r => some (.bool true, r)
        | _ => none
      else if c = 'f' then
        match rest with
        | 'a' :: 'l' :: 's' :: 'e' :: r => some (.bool false, r)
        | _ => none
      else if c = '\"' then
        (parseStrChars rest).map (fun r => (.str (String.mk r.1), r.2))
      else if c = '[' then
        match skipWs rest with
        | ']' :: r => some (.arr [], r)
        | _ => (parseItems fuel rest).map (fun r => (.arr r.1, r.2))
      else if c = '\x7b' then
        match skipWs rest with
        | '\x7d' :: r => some (.obj [], r)
        | _ => (parseFields fuel rest).map (fun r => (.obj r.1, r.2))
      else if c = '-' || c.isDigit then
        (parseNum (c :: rest)).map (fun r => (.num r.1, r.2))
      else none

/-- Elements of a non-empty JSON array, up to and including `]`. -/
def parseItems : Nat → List Char → Option (List JsVal × List Char)
  | 0, _ => none
  | fuel + 1, cs =>
    match parseVal fuel cs with
    | none => none
    | some (v, r) =>
      match skipWs r with
      | ',' :: r2 => (parseItems fuel r2).map (fun t => (v :: t.1, t.2))
      | ']' :: r2 => some ([v], r2)
      | _ => none

/-- Fields of a non-empty JSON object, up to and including the closing
brace. -/
def parseFields : Nat → List Char → Option (List (String × JsVal) × List Char)
  | 0, _ => none
  | fuel + 1, cs =>
    match skipWs cs with
    | '\"' :: rest =>
      match parseStrChars rest with
      | none => none
      | some (k, r) =>
        match skipWs r with
        | ':' :: r2 =>
          match parseVal fuel r2 with
          | none => none
          | some (v, r3) =>
            match skipWs r3 with
            | ',' :: r4 =>
              (parseFields fuel r4).map (fun t => ((String.mk k, v) :: t.1, t.2))
            | '\x7d' :: r4 => some ([(String.mk k, v)], r4)
            | _ => none
        | _ => none
    | _ => none

end

/-- `JSON.parse` (on the integer-number subset of JSON, see the header):
parse one value and insist the rest of the input is whitespace. -/
def parseJson (s : String) : Option JsVal :=
  match parseVal (s.data.length + 1) s.data with
  | some (v, r) => if (skipWs r).isEmpty then some v else none
  | none => none

-- Sanity checks on the JSON model.
example : parseJson "\x7b\"defaultValue\":\"a\"\x7d" =
    some (.obj [("defaultValue", .str "a")]) := by rfl
example : parseJson "not-json" = none := by rfl
example : parseJson "[1,-2,null,true]" =
    some (.arr [.num 1, .num (-2), .null, .bool true]) := by rfl
example :
    (stringifyVal (.obj [("a", .str "x\"y"), ("b", .arr [])])).map String.mk =
    some "\x7b\"a\":\"x\\\"y\",\"b\":[]\x7d" := by rfl
example : parseJson "\x7b\x7d" = some (.obj []) := by rfl
example : parseJson "" = none := by rfl

/-- `serialized.split('::')`: split at every non-overlapping occurrence of
`'::'`, scanning left to right. -/
def splitSep : List Char → List (List Char)
  | [] => [[]]
  | ':' :: ':' :: rest => [] :: splitSep rest
  | c :: rest =>
    match splitSep rest with
    | [] => [[c]]
    | s :: ss => (c :: s) :: ss

/-- The reserved command field name (`commandKey` in the newer revision; the
older revision uses the literal `'__conform__'`). -/
def commandKey : String := "__conform__"

/-- `ListCommand<Schema>` (newer revision): the five list operations.
`Schema` is instantiated with runtime values; the `from`/`to` fields of
`reorder` are named `fromIndex`/`toIndex` because `from` is a Lean keyword. -/
inductive ListCommand where
  | prepend (defaultValue : JsVal) : ListCommand
  | append (defaultValue : JsVal) : ListCommand
  | replace (defaultValue : JsVal) (index : Int) : ListCommand
  | remove (index : Int) : ListCommand
  | reorder (fromIndex toIndex : Int) : ListCommand
  deriving Repr

/-- The `type` discriminant of a command. -/
def cmdType : ListCommand → String
  | .prepend _ => "prepend"
  | .append _ => "append"
  | .replace _ _ => "replace"
  | .remove _ => "remove"
  | .reorder _ _ => "reorder"

/-- The `payload` object of a command, as the runtime object that
`JSON.stringify` receives. -/
def cmdPayload : ListCommand → JsVal
  | .prepend v => .obj [("defaultValue", v)]
  | .append v => .obj [("defaultValue", v)]
  | .replace v i => .obj [("defaultValue", v), ("index", .num i)]
  | .remove i => .obj [("index", .num i)]
  | .reorder f t => .obj [("from", .num f), ("to", .num t)]

/-- `serializeListCommand` (lines 206–211):
`[name, type, JSON.stringify(payload)].join('::')` (`join` renders an
`undefined` element as the empty string; unreachable here since every
payload is an object). -/
def serializeListCommand (name : String) (command : ListCommand) : String :=
  name ++ "::" ++ cmdType command ++ "::" ++
    String.mk ((stringifyVal (cmdPayload command)).getD [])

/-- `parseListCommand` (lines 213–219): split on `'::'`, destructure the
first three parts, `JSON.parse` the third.  The `type` part is *cast*, not
validated, so it is returned as a raw string; when fewer than three parts
exist `JSON.parse(undefined)` throws, and a `JSON.parse` failure throws —
both modelled as `.error` carrying a placeholder for the host
`SyntaxError` message. -/
def parseListCommand (serialized : String) :
    Except String (String × String × JsVal) :=
  match splitSep serialized.data with
  | n :: t :: j :: _ =>
    match parseJson (String.mk j) with
    | some p => .ok (String.mk n, String.mk t, p)
    | none => .error "SyntaxError"
  | _ => .error "SyntaxError"

/-- The start offset actually used by `Array.prototype.splice`: negative
values count from the end (clamped at 0), positive values are clamped at
the length. -/
def jsStart (len : Nat) (i : Int) : Nat :=
  if i < 0 then ((len : Int) + i).toNat else min i.toNat len

/-- `list.splice(start, delCount, ...items)`: returns the mutated list and
the removed elements. -/
def splice (l : List JsVal) (start : Int) (delCount : Nat) (items : List JsVal) :
    List JsVal × List JsVal :=
  let s := jsStart l.length start
  let d := min delCount (l.length - s)
  (l.take s ++ items ++ l.drop (s + d), (l.drop s).take d)

/-- `ToIntegerOrInfinity` as `splice` applies it to an index argument coming
out of a JSON payload: numbers pass through, `undefined`/`null`/`false`
become 0, `true` becomes 1; strings go through `ToNumber` (modelled for
optionally-signed digit strings, with non-numeric strings — `NaN` — mapped
to 0); objects and arrays are modelled as 0. -/
def jsToInt : JsVal → Int
  | .num n => n
  | .bool true => 1
  | .str s =>
    match s.data with
    | '-' :: ds => if ds ≠ [] ∧ ds.all Char.isDigit then -(digitsToNat ds : Int) else 0
    | ds => if ds ≠ [] ∧ ds.all Char.isDigit then (digitsToNat ds : Int) else 0
  | _ => 0

/-- Property read `payload.field` on a parsed JSON payload: `undefined`
unless the payload is an object with that field. -/
def jsGetField (payload : JsVal) (k : String) : JsVal :=
  match payload with
  | .obj kvs => (kvs.lookup k).getD .undef
  | _ => JsVal.undef

/-- `applyListCommand` (newer revision, lines 221–253), at runtime: the
`command.type` tag is an arbitrary string (the cast in `parseListCommand`
performs no validation) and the payload fields are read with JavaScript
property semantics.  Unknown tags throw `'Invalid list command'`. -/
def applyListCommand (list : List JsVal) (ty : String) (payload : JsVal) :
    Except String (List JsVal) :=
  if ty = "prepend" then .ok (jsGetField payload "defaultValue" :: list)
  else if ty = "append" then .ok (list ++ [jsGetField payload "defaultValue"])
  else if ty = "replace" then
    .ok ((splice list (jsToInt (jsGetField payload "index")) 1
      [jsGetField payload "defaultValue"]).1)
  else if ty = "remove" then
    .ok ((splice list (jsToInt (jsGetField payload "index")) 1 []).1)
  else if ty = "reorder" then
    let inner := splice list (jsToInt (jsGetField payload "from")) 1 []
    .ok ((splice inner.1 (jsToInt (jsGetField payload "to")) 0 inner.2).1)
  else .error "Invalid list command"

/-- `applyControlCommand` (older revision, lines 587–621): identical
list semantics, different unknown-tag message. -/
def applyControlCommand (list : List JsVal) (action : String) (payload : JsVal) :
    Except String (List JsVal) :=
  if action = "prepend" then .ok (jsGetField payload "defaultValue" :: list)
  else if action = "append" then .ok (list ++ [jsGetField payload "defaultValue"])
  else if action = "replace" then
    .ok ((splice list (jsToInt (jsGetField payload "index")) 1
      [jsGetField payload "defaultValue"]).1)
  else if action = "remove" then
    .ok ((splice list (jsToInt (jsGetField payload "index")) 1 []).1)
  else if action = "reorder" then
    let inner := splice list (jsToInt (jsGetField payload "from")) 1 []
    .ok ((splice inner.1 (jsToInt (jsGetField payload "to")) 0 inner.2).1)
  else .error "Invalid action found"

-- Sanity checks against the observable JavaScript splice behaviour.
example : applyListCommand [.str "a", .str "b", .str "c"] "remove"
    (.obj [("index", .num 1)]) = .ok [.str "a", .str "c"] := by rfl
example : applyListCommand [.str "a", .str "b", .str "c"] "reorder"
    (.obj [("from", .num 2), ("to", .num 0)]) =
    .ok [.str "c", .str "a", .str "b"] := by rfl
example : applyListCommand [] "append" (.obj [("defaultValue", .str "x")]) =
    .ok [.str "x"] := by rfl
example : applyListCommand [.str "a", .str "b"] "replace"
    (.obj [("defaultValue", .str "z"), ("index", .num 0)]) =
    .ok [.str "z", .str "b"] := by rfl
example : applyListCommand [.str "a", .str "b"] "replace"
    (.obj [("defaultValue", .str "z"), ("index", .num 2)]) =
    .ok [.str "a", .str "b", .str "z"] := by rfl

/-- `payload.get(key)` on `FormData`/`URLSearchParams`: first entry with
that name, or `null` (modelled as `none`). -/
def firstGet (entries : List (String × JsVal)) (k : String) : Option JsVal :=
  (entries.find? (fun e => e.1 == k)).map (·.2)

/-- `payload.delete(key)`: removes *all* entries with that name. -/
def deleteAll (entries : List (String × JsVal)) (k : String) :
    List (String × JsVal) :=
  entries.filter (fun e => !(e.1 == k))

/-- The classified submission outcome.  The `form.value` of the source is
carried in each constructor; `accepted` also exposes the same value as
`data`.  The error tree is modelled as the key/value list the source
actually produces (`{}`, `{message}` in the newer revision, or
`{__conform__}` in the older one). -/
inductive Submission where
  | modified (value : JsVal) : Submission
  | rejected (value : JsVal) (error : List (String × String)) : Submission
  | accepted (value : JsVal) : Submission
  deriving Repr

/-- Walk the structured value along a path, as both revisions do
(`list = list[path]`, stopping on `undefined`; since every property read of
`undefined` is modelled as `undefined`, the early `break` is equivalent to
completing the fold). -/
def resolveList (value : JsVal) (paths : List Step) : JsVal :=
  paths.foldl jsGetProp value

/-- Write the (in JavaScript: in-place mutated) list back at the path it was
resolved from.  The walk only reads, so the addressed sub-container has a
single occurrence in the tree and functional update is equivalent to the
source's aliasing mutation. -/
def putPath : JsVal → List Step → JsVal → JsVal
  | _, [], x => x
  | v, p :: rest, x =>
    match jsSetProp v p (putPath (jsGetProp v p) rest x) with
    | .ok v' => v'
    | .error _ => v

/-- The command block of the newer `parse` (lines 281–305): `File` check,
`parseListCommand`, walk to the target, `Array.isArray` check, then
`applyListCommand` on the target in place. -/
def handleCommand (value : JsVal) (command : JsVal) : Except String JsVal :=
  match command with
  | .file _ =>
    .error ("The \"" ++ commandKey ++ "\" key could not be used for file upload")
  | .str c =>
    match parseListCommand c with
    | .error e => .error e
    | .ok (name, ty, payload) =>
      match resolveList value (getPaths name) with
      | .arr xs =>
        match applyListCommand xs ty payload with
        | .error e => .error e
        | .ok xs' => .ok (putPath value (getPaths name) (.arr xs'))
      | _ => .error "The command can only be applied to a list"
  | _ => .error "The command can only be applied to a list"

/-- The no-command path of the newer `parse`: build the tree; a pending
exception is caught and becomes `rejected` with the message at the error
tree's top-level `message` field; otherwise `accepted`. -/
def parseNoCommand (payload : List (String × JsVal)) :
    Submission × List (String × JsVal) :=
  match buildValue (.obj []) payload with
  | (value, some e) => (.rejected value [("message", e)], payload)
  | (value, none) => (.accepted value, payload)

/-- `parse` (newer revision, lines 255–334).  Besides the `Submission` the
model returns the final state of the caller's entry list, to make the
mutation of the input (`payload.delete(commandKey)`) observable.  Note
`if (command)` is a truthiness test: an empty-string command value is
treated as no command at all (and not deleted). -/
def parse (payload : List (String × JsVal)) :
    Submission × List (String × JsVal) :=
  match firstGet payload commandKey with
  | some c =>
    if truthy c then
      let payload1 := deleteAll payload commandKey
      match buildValue (.obj []) payload1 with
      | (value, some e) => (.rejected value [("message", e)], payload1)
      | (value, none) =>
        match handleCommand value c with
        | .error e => (.rejected value [("message", e)], payload1)
        | .ok value1 => (.modified value1, payload1)
    else parseNoCommand payload
  | none => parseNoCommand payload

namespace Legacy

/-- The command block of the older `parse` (lines 634–658): `File` check,
inline `split('::')`, walk to the target, `Array.isArray` check throwing an
*empty* message, then `JSON.parse(json)` and `applyControlCommand`.
A missing third part makes `JSON.parse(undefined)` throw (placeholder
`SyntaxError`), but only after the target check. -/
def handleCommand (value : JsVal) (command : JsVal) : Except String JsVal :=
  match command with
  | .file _ =>
    .error "The __conform__ key is reserved for special command and could not be used for file upload."
  | .str c =>
    let parts := splitSep c.data
    let name := String.mk (parts.getD 0 [])
    match resolveList value (getPaths name) with
    | .arr xs =>
      match (parts.get? 2).bind (fun j => parseJson (String.mk j)) with
      | none => .error "SyntaxError"
      | some payload =>
        match applyControlCommand xs (String.mk (parts.getD 1 [])) payload with
        | .error e => .error e
        | .ok xs' => .ok (putPath value (getPaths name) (.arr xs'))
    | _ => .error ""
  | _ => .error ""

/-- The no-command path of the older `parse`: `transform` runs *outside*
any `try`, so a pending exception escapes `parse` itself (first component
`none`); otherwise the submission is `accepted`. -/
def parseNoCommand (payload : List (String × JsVal)) :
    Option Submission × List (String × JsVal) :=
  match transform payload with
  | (_, some _) => (none, payload)
  | (value, none) => (some (.accepted value), payload)

/-- `parse` (older revision, lines 623–689).  Same `get`/truthiness/
`delete` prologue as the newer revision; `transform` is not protected by
the `try`, so an exception thrown there escapes to the caller (modelled as
a `none` submission); a command failure is caught and becomes `rejected`
with the message under the `__conform__` key of the error tree. -/
def parse (payload : List (String × JsVal)) :
    Option Submission × List (String × JsVal) :=
  match firstGet payload commandKey with
  | some c =>
    if truthy c then
      let payload1 := deleteAll payload commandKey
      match transform payload1 with
      | (_, some _) => (none, payload1)
      | (value, none) =>
        match handleCommand value c with
        | .error e => (some (.rejected value [("__conform__", e)]), payload1)
        | .ok value1 => (some (.modified value1), payload1)
    else parseNoCommand payload
  | none => parseNoCommand payload

end Legacy

-- Sanity checks on the two parse revisions.
example :
    parse [("email", .str "a@b.com"), ("password", .str "secret")] =
    (.accepted (.obj [("email", .str "a@b.com"), ("password", .str "secret")]),
      [("email", .str "a@b.com"), ("password", .str "secret")]) := by rfl
example :
    parse [("tasks[0]", .str "x"),
      ("__conform__", .str "tasks::append::\x7b\"defaultValue\":\"y\"\x7d")] =
    (.modified (.obj [("tasks", .arr [.str "x", .str "y"])]),
      [("tasks[0]", .str "x")]) := by rfl
example :
    parse [("__conform__", .str "x")] =
    (.rejected (.obj []) [("message", "SyntaxError")], []) := by rfl
example :
    Legacy.parse [("__conform__", .str "x")] =
    (some (.rejected (.obj []) [("__conform__", "")]), []) := by rfl
example :
    parse [("title", .str "t"), ("__conform__", .str "title::remove::\x7b\"index\":0\x7d")] =
    (.rejected (.obj [("title", .str "t")])
      [("message", "The command can only be applied to a list")],
      [("title", .str "t")]) := by rfl

/-! ## Verification -/

lemma splice_oob (l : List JsVal) (i : Nat) (h : l.length ≤ i)
    (del : Nat) (items : List JsVal) :
    (splice l (i : Int) del items).1 = l ++ items := by
  have h0 : ¬ ((i : Int) < 0) := by omega
  have hs : jsStart l.length i = l.length := by
    unfold jsStart
    rw [if_neg h0]
    simp only [Int.toNat_natCast]
    omega
  unfold splice
  simp only [hs]
  have hd : min del (l.length - l.length) = 0 := by omega
  simp [hd]

/-- C6: `applyListCommand` satisfies the four concrete equations of the
spec: remove-at-1 on `["a","b","c"]`, move 2→0 on `["a","b","c"]`,
append `"x"` to `[]`, replace-at-0 with `"z"` on `["a","b"]`. -/
theorem applyListCommand_concrete_eqs :
    applyListCommand [.str "a", .str "b", .str "c"] "remove"
      (.obj [("index", .num 1)]) = .ok [.str "a", .str "c"]
  ∧ applyListCommand [.str "a", .str "b", .str "c"] "reorder"
      (.obj [("from", .num 2), ("to", .num 0)]) = .ok [.str "c", .str "a", .str "b"]
  ∧ applyListCommand [] "append" (.obj [("defaultValue", .str "x")]) = .ok [.str "x"]
  ∧ applyListCommand [.str "a", .str "b"] "replace"
      (.obj [("defaultValue", .str "z"), ("index", .num 0)]) = .ok [.str "z", .str "b"] :=
  ⟨rfl, rfl, rfl, rfl⟩

/-- C9 (counterexample): an out-of-range `replace` is *not* a no-op —
`splice` clamps the start to the length, so the default value is appended:
replacing index 2 of the two-element list `["a","b"]` yields
`["a","b","z"]`, not `["a","b"]`. -/
theorem replace_out_of_range_appends_cex :
    applyListCommand [.str "a", .str "b"] "replace"
      (.obj [("defaultValue", .str "z"), ("index", .num 2)]) =
      .ok [.str "a", .str "b", .str "z"]
  ∧ applyListCommand [.str "a", .str "b"] "replace"
      (.obj [("defaultValue", .str "z"), ("index", .num 2)]) ≠
      .ok [.str "a", .str "b"] := by
  refine ⟨rfl, ?_⟩
  intro h
  rw [show applyListCommand [.str "a", .str "b"] "replace"
      (.obj [("defaultValue", .str "z"), ("index", .num 2)]) =
      .ok [.str "a", .str "b", .str "z"] from rfl] at h
  injection h with h'
  exact absurd (congrArg List.length h') (by decide)

/-- C9 (amended): for every sequence and every index `≥` its length,
`remove` is a silent no-op, while `replace` appends the default value at
the end (JavaScript `splice` clamps the start offset to the length). -/
theorem splice_out_of_range (l : List JsVal) (i : Nat) (v : JsVal)
    (h : l.length ≤ i) :
    applyListCommand l "remove" (.obj [("index", .num i)]) = .ok l
  ∧ applyListCommand l "replace" (.obj [("defaultValue", v), ("index", .num i)]) =
      .ok (l ++ [v]) := by
  constructor
  · show Except.ok ((splice l (i : Int) 1 []).1) = .ok l
    rw [splice_oob l i h 1 []]
    simp
  · show Except.ok ((splice l (i : Int) 1 [v]).1) = .ok (l ++ [v])
    rw [splice_oob l i h 1 [v]]

/-- Witness for `splice_out_of_range` at a concrete list and index. -/
theorem splice_out_of_range_witness :
    applyListCommand [.str "a"] "remove" (.obj [("index", .num 5)]) = .ok [.str "a"]
  ∧ applyListCommand [.str "a"] "replace"
      (.obj [("defaultValue", .str "z"), ("index", .num 5)]) =
      .ok [.str "a", .str "z"] :=
  splice_out_of_range [.str "a"] 5 (.str "z") (by decide)

/-- C10 (counterexample): an entry set that contains the reserved command
field with the empty-string value is *not* mutated at all — `if (command)`
is a truthiness test, the empty string is falsy, and `payload.delete` is
skipped — contradicting the claim that the reserved entry is always
deleted. -/
theorem parse_keeps_falsy_command_cex :
    (parse [(commandKey, JsVal.str "")]).2 = [(commandKey, JsVal.str "")]
  ∧ (Legacy.parse [(commandKey, JsVal.str "")]).2 = [(commandKey, JsVal.str "")]
  ∧ deleteAll [(commandKey, JsVal.str "")] commandKey = []
  ∧ [(commandKey, JsVal.str "")] ≠ ([] : List (String × JsVal)) :=
  ⟨rfl, rfl, rfl, List.cons_ne_nil _ _⟩

/-- C10 (amended): both revisions of `parse` mutate their input exactly as
follows: when the first `__conform__` entry holds a truthy value (a
non-empty string or a `File`), *all* entries named `__conform__` are removed
(and nothing else — `delete` filters by name only, preserving the order of
the remaining entries); when the first `__conform__` value is falsy, or no
such entry exists, the input is left unchanged. -/
theorem parse_deletes_command_entry (entries : List (String × JsVal)) :
    (∀ c, firstGet entries commandKey = some c → truthy c = true →
      (parse entries).2 = deleteAll entries commandKey
      ∧ (Legacy.parse entries).2 = deleteAll entries commandKey)
  ∧ (∀ c, firstGet entries commandKey = some c → truthy c = false →
      (parse entries).2 = entries ∧ (Legacy.parse entries).2 = entries)
  ∧ (firstGet entries commandKey = none →
      (parse entries).2 = entries ∧ (Legacy.parse entries).2 = entries) := by
  refine ⟨?_, ?_, ?_⟩
  · intro c h ht
    constructor
    · unfold parse
      simp only [h, ht, eq_self_iff_true, if_true]
      rcases hb : buildValue (.obj []) (deleteAll entries commandKey) with ⟨v, e?⟩
      cases e? with
      | some e => rfl
      | none =>
        rcases hc : handleCommand v c with e | v1 <;> simp [hc]
    · unfold Legacy.parse
      simp only [h, ht, eq_self_iff_true, if_true]
      rcases hb : transform (deleteAll entries commandKey) with ⟨v, e?⟩
      cases e? with
      | some e => rfl
      | none =>
        rcases hc : Legacy.handleCommand v c with e | v1 <;> simp [hc]
  · intro c h ht
    constructor
    · unfold parse
      simp only [h, ht, Bool.false_eq_true, if_false]
      unfold parseNoCommand
      rcases hb : buildValue (.obj []) entries with ⟨v, e?⟩
      cases e? <;> rfl
    · unfold Legacy.parse
      simp only [h, ht, Bool.false_eq_true, if_false]
      unfold Legacy.parseNoCommand
      rcases hb : transform entries with ⟨v, e?⟩
      cases e? <;> rfl
  · intro h
    constructor
    · unfold parse
      simp only [h]
      unfold parseNoCommand
      rcases hb : buildValue (.obj []) entries with ⟨v, e?⟩
      cases e? <;> rfl
    · unfold Legacy.parse
      simp only [h]
      unfold Legacy.parseNoCommand
      rcases hb : transform entries with ⟨v, e?⟩
      cases e? <;> rfl

/-- Witness for `parse_deletes_command_entry` on a concrete entry set with
a truthy command value. -/
theorem parse_deletes_command_entry_witness :
    (parse [("a", JsVal.str "1"), (commandKey, JsVal.str "x")]).2 =
      deleteAll [("a", JsVal.str "1"), (commandKey, JsVal.str "x")] commandKey
  ∧ (Legacy.parse [("a", JsVal.str "1"), (commandKey, JsVal.str "x")]).2 =
      deleteAll [("a", JsVal.str "1"), (commandKey, JsVal.str "x")] commandKey :=
  (parse_deletes_command_entry [("a", JsVal.str "1"), (commandKey, JsVal.str "x")]).1
    (JsVal.str "x") (by rfl) (by rfl)

/-- C7 (counterexample): `parseListCommand` performs no validation of the
operation tag — a serialized string with the unknown tag `bogus` and a
well-formed JSON payload is returned *successfully*, contradicting the
claim that deserialization fails on unknown tags. -/
theorem parseListCommand_unknown_tag_cex :
    parseListCommand "x::bogus::\x7b\x7d" = .ok ("x", "bogus", JsVal.obj [])
  ∧ ("bogus" ≠ "prepend" ∧ "bogus" ≠ "append" ∧ "bogus" ≠ "replace"
      ∧ "bogus" ≠ "remove" ∧ "bogus" ≠ "reorder") :=
  ⟨rfl, by decide⟩

/-- C7 (amended): `parseListCommand` fails exactly when the wire string has
fewer than three `'::'`-separated parts or the JSON payload part does not
parse; it validates neither the operation tag nor the payload shape (both
are returned as-is).  The unknown-tag check lives in `applyListCommand`,
which throws `'Invalid list command'` for every tag outside the five known
ones. -/
theorem parseListCommand_validation :
    (∀ s : String,
      (∃ e, parseListCommand s = .error e) ↔
        ((splitSep s.data).length < 3
          ∨ parseJson (String.mk ((splitSep s.data).getD 2 [])) = none))
  ∧ (∀ (list : List JsVal) (ty : String) (payload : JsVal),
      ty ≠ "prepend" → ty ≠ "append" → ty ≠ "replace" → ty ≠ "remove" →
      ty ≠ "reorder" →
      applyListCommand list ty payload = .error "Invalid list command") := by
  constructor
  · intro s
    unfold parseListCommand
    match hs : splitSep s.data with
    | [] => simp
    | [a] => simp
    | [a, b] => simp
    | a :: b :: c :: rest =>
      simp only [List.getD, List.length_cons, List.getElem?_cons_succ,
        List.getElem?_cons_zero, Option.getD_some]
      cases hj : parseJson (String.mk c) with
      | some p => simp [hj]
      | none => simp [hj]
  · intro list ty payload h1 h2 h3 h4 h5
    unfold applyListCommand
    rw [if_neg h1, if_neg h2, if_neg h3, if_neg h4, if_neg h5]

/-- Witness for `parseListCommand_validation`: the failure
characterisation at a malformed two-part string, and the unknown-tag
throw of `applyListCommand` at a concrete call. -/
theorem parseListCommand_validation_witness :
    (∃ e, parseListCommand "a::b" = .error e)
  ∧ applyListCommand [] "bogus" (JsVal.obj []) = .error "Invalid list command" :=
  ⟨(parseListCommand_validation.1 "a::b").2 (by left; decide),
    parseListCommand_validation.2 [] "bogus" (JsVal.obj [])
      (by decide) (by decide) (by decide) (by decide) (by decide)⟩

/-- The empty container `setValue` creates for a step of the given kind. -/
def emptyFor : Step → JsVal
  | .key _ => .obj []
  | .idx _ => .arr []

/-- The tree a single fresh `setValue` walk builds below its starting
container: a mapping field for a key step, a sequence (padded with holes)
for an index step, the leaf at the end.  The container stored *for* a step
is a sequence exactly when the *next* step is an index step, which is what
`freshPath rest leaf` expands to at each level. -/
def freshPath : List Step → JsVal → JsVal
  | [], leaf => leaf
  | .key k :: rest, leaf => .obj [(k, freshPath rest leaf)]
  | .idx n :: rest, leaf =>
    .arr (List.replicate n .undef ++ [freshPath rest leaf])

lemma set_replicate_append (n : Nat) (a b c : JsVal) :
    (List.replicate n a ++ [b]).set n c = List.replicate n a ++ [c] := by
  induction n with
  | zero => rfl
  | succ n ih => simp [List.replicate_succ, ih]

lemma getD_replicate_append (n : Nat) (a b d : JsVal) :
    (List.replicate n a ++ [b]).getD n d = b := by
  induction n with
  | zero => rfl
  | succ n ih => simp [List.replicate_succ, ih]

lemma arrSet_empty (n : Nat) (x : JsVal) :
    arrSet [] n x = List.replicate n .undef ++ [x] := by
  simp [arrSet]

lemma arrSet_replicate_append (n : Nat) (b c : JsVal) :
    arrSet (List.replicate n .undef ++ [b]) n c =
      List.replicate n .undef ++ [c] := by
  have hl : n < (List.replicate n JsVal.undef ++ [b]).length := by simp
  simp [arrSet, hl, set_replicate_append]

lemma jsGetProp_arr_pad (n : Nat) (b : JsVal) :
    jsGetProp (.arr (List.replicate n .undef ++ [b])) (.idx n) = b := by
  simp [jsGetProp, getD_replicate_append]

lemma jsSetProp_arr_pad (n : Nat) (b c : JsVal) :
    jsSetProp (.arr (List.replicate n .undef ++ [b])) (.idx n) c =
      .ok (.arr (List.replicate n .undef ++ [c])) := by
  simp [jsSetProp, arrSet_replicate_append]

/-- A fresh walk from the matching empty container builds exactly
`freshPath`. -/
lemma setValue_fresh (f : JsVal → Except String JsVal) (leaf : JsVal)
    (hf : f .undef = .ok leaf) :
    ∀ (rest : List Step) (p : Step),
      setValue (emptyFor p) (p :: rest) f = (freshPath (p :: rest) leaf, none) := by
  intro rest
  induction rest with
  | nil =>
    intro p
    cases p with
    | key k => simp [setValue, emptyFor, jsGetProp, hf, jsSetProp, setField, freshPath]
    | idx n => simp [setValue, emptyFor, jsGetProp, hf, jsSetProp, arrSet_empty, freshPath]
  | cons q rest' ih =>
    intro p
    have ihq := ih q
    cases p with
    | key k =>
      cases q with
      | key k2 =>
        simp only [emptyFor] at ihq
        simp [setValue, emptyFor, jsGetProp, nullish, jsSetProp, setField,
          ihq, freshPath]
      | idx n2 =>
        simp only [emptyFor] at ihq
        simp [setValue, emptyFor, jsGetProp, nullish, jsSetProp, setField,
          ihq, freshPath]
    | idx n =>
      cases q with
      | key k2 =>
        simp only [emptyFor] at ihq
        simp [setValue, emptyFor, jsGetProp, nullish, jsSetProp, arrSet_empty,
          ihq, freshPath, arrSet_replicate_append, getD_replicate_append]
      | idx n2 =>
        simp only [emptyFor] at ihq
        simp [setValue, emptyFor, jsGetProp, nullish, jsSetProp, arrSet_empty,
          ihq, freshPath, arrSet_replicate_append, getD_replicate_append]

/-- Walking an already-built `freshPath` again: every intermediate container
exists, and the leaf is handed to `valueFn`; if `valueFn` throws, the tree
is returned unchanged with the pending exception. -/
lemma setValue_existing_err (f : JsVal → Except String JsVal) (leaf : JsVal)
    (E : String) (hf : f leaf = .error E) :
    ∀ (rest : List Step) (p : Step),
      setValue (freshPath (p :: rest) leaf) (p :: rest) f =
        (freshPath (p :: rest) leaf, some E) := by
  intro rest
  induction rest with
  | nil =>
    intro p
    cases p with
    | key k => simp [setValue, freshPath, jsGetProp, hf]
    | idx n => simp [setValue, freshPath, jsGetProp, getD_replicate_append, hf]
  | cons q rest' ih =>
    intro p
    have ihq := ih q
    have hc : nullish (freshPath (q :: rest') leaf) = false := by
      cases q <;> simp [freshPath, nullish]
    cases p with
    | key k =>
      simp [setValue, freshPath, jsGetProp, hc, jsSetProp, setField, ihq]
    | idx n =>
      simp [setValue, freshPath, jsGetProp, getD_replicate_append, hc,
        jsSetProp, arrSet_replicate_append, ihq]

/-- Walking an already-built `freshPath` with a `valueFn` that succeeds
replaces the leaf. -/
lemma setValue_existing_ok (f : JsVal → Except String JsVal) (leaf leaf2 : JsVal)
    (hf : f leaf = .ok leaf2) :
    ∀ (rest : List Step) (p : Step),
      setValue (freshPath (p :: rest) leaf) (p :: rest) f =
        (freshPath (p :: rest) leaf2, none) := by
  intro rest
  induction rest with
  | nil =>
    intro p
    cases p with
    | key k => simp [setValue, freshPath, jsGetProp, hf, jsSetProp, setField]
    | idx n =>
      simp [setValue, freshPath, jsGetProp, getD_replicate_append, hf,
        jsSetProp, arrSet_replicate_append]
  | cons q rest' ih =>
    intro p
    have ihq := ih q
    have hc : nullish (freshPath (q :: rest') leaf) = false := by
      cases q <;> simp [freshPath, nullish]
    cases p with
    | key k =>
      simp [setValue, freshPath, jsGetProp, hc, jsSetProp, setField, ihq]
    | idx n =>
      simp [setValue, freshPath, jsGetProp, getD_replicate_append, hc,
        jsSetProp, arrSet_replicate_append, ihq]

lemma splitDot_ne_nil (cs : List Char) : splitDot cs ≠ [] := by
  cases cs with
  | nil => simp [splitDot]
  | cons c cs =>
    unfold splitDot
    split
    · simp
    · cases splitDot cs <;> simp

/-- A decoded non-empty name always starts with a key step (each segment
contributes a key first). -/
lemma getPaths_shape (name : String) (h : name ≠ "") :
    ∃ k rest, getPaths name = Step.key k :: rest := by
  unfold getPaths
  rw [if_neg h]
  obtain ⟨s0, ss, hsp⟩ : ∃ s0 ss, splitDot name.data = s0 :: ss := by
    cases hsp : splitDot name.data with
    | nil => exact absurd hsp (splitDot_ne_nil _)
    | cons a b => exact ⟨a, b, rfl⟩
  rw [hsp, List.flatMap_cons]
  unfold segSteps
  cases execPattern s0 with
  | none => exact ⟨_, _, rfl⟩
  | some r => exact ⟨_, _, rfl⟩

/-- C5: the tree builder creates intermediate containers on demand, a
sequence exactly when the next step is an index step (this is what
`freshPath` expands to level by level), and sets the leaf at the final
step; and the two-entry scenario builds
`{tasks: [{content: "buy milk", completed: "yes"}]}`. -/
theorem setValue_fresh_containers :
    (∀ (k : String) (rest : List Step) (s : String), s ≠ "" →
      setValue (.obj []) (Step.key k :: rest) (entryValueFn (.str s)) =
        (freshPath (Step.key k :: rest) (.str s), none))
  ∧ buildValue (.obj [])
      [("tasks[0].content", .str "buy milk"), ("tasks[0].completed", .str "yes")] =
      (.obj [("tasks", .arr [.obj [("content", .str "buy milk"),
        ("completed", .str "yes")]])], none) := by
  constructor
  · intro k rest s hs
    exact setValue_fresh (entryValueFn (.str s)) (.str s)
      (by simp [entryValueFn, truthy, hs]) rest (Step.key k)
  · rfl

/-- Witness for `setValue_fresh_containers` at a concrete path. -/
theorem setValue_fresh_containers_witness :
    setValue (.obj []) [Step.key "tasks", Step.idx 0, Step.key "content"]
      (entryValueFn (.str "buy milk")) =
      (freshPath [Step.key "tasks", Step.idx 0, Step.key "content"]
        (.str "buy milk"), none) :=
  setValue_fresh_containers.1 "tasks" [Step.idx 0, Step.key "content"]
    "buy milk" (by decide)

/-- C8: the two historical revisions disagree on duplicate leaves.  For an
entry set with two entries of the same (non-empty, non-reserved) name and
non-empty values, the newer `parse` throws `'Entry with the same name is
not supported'` on the second entry and rejects, while the older
`transform`-based `parse` silently overwrites, the later value wins, and
the submission is accepted. -/
theorem duplicate_leaf_policies (name v1 v2 : String)
    (h0 : name ≠ "") (hk : name ≠ commandKey) (h1 : v1 ≠ "") (h2 : v2 ≠ "") :
    (parse [(name, .str v1), (name, .str v2)]).1 =
      .rejected (freshPath (getPaths name) (.str v1))
        [("message", "Entry with the same name is not supported")]
  ∧ (Legacy.parse [(name, .str v1), (name, .str v2)]).1 =
      some (.accepted (freshPath (getPaths name) (.str v2))) := by
  obtain ⟨k, rest, hp⟩ := getPaths_shape name h0
  have hb : (name == commandKey) = false := beq_eq_false_iff_ne.mpr hk
  have hfg : firstGet [(name, JsVal.str v1), (name, JsVal.str v2)] commandKey
      = none := by
    simp [firstGet, List.find?, hb]
  have e1 : setValue (JsVal.obj []) (getPaths name) (entryValueFn (.str v1)) =
      (freshPath (getPaths name) (.str v1), none) := by
    rw [hp]
    exact setValue_fresh _ _ (by simp [entryValueFn, truthy, h1]) rest (Step.key k)
  have e2 : setValue (freshPath (getPaths name) (.str v1)) (getPaths name)
      (entryValueFn (.str v2)) =
      (freshPath (getPaths name) (.str v1),
        some "Entry with the same name is not supported") := by
    rw [hp]
    exact setValue_existing_err _ _ _ (by simp [entryValueFn, truthy, h1]) rest
      (Step.key k)
  have t1 : setValue (JsVal.obj []) (getPaths name)
      (fun _ => Except.ok (JsVal.str v1)) =
      (freshPath (getPaths name) (.str v1), none) := by
    rw [hp]
    exact setValue_fresh (fun _ => Except.ok (JsVal.str v1)) (JsVal.str v1) rfl
      rest (Step.key k)
  have t2 : setValue (freshPath (getPaths name) (.str v1)) (getPaths name)
      (fun _ => Except.ok (JsVal.str v2)) =
      (freshPath (getPaths name) (.str v2), none) := by
    rw [hp]
    exact setValue_existing_ok (fun _ => Except.ok (JsVal.str v2)) (JsVal.str v1)
      (JsVal.str v2) rfl rest (Step.key k)
  constructor
  · unfold parse
    simp only [hfg]
    unfold parseNoCommand
    simp [buildValue, e1, e2]
  · unfold Legacy.parse
    simp only [hfg]
    unfold Legacy.parseNoCommand
    simp [transform, transform.go, skipEntry, h1, h2, t1, t2]

/-- Witness for `duplicate_leaf_policies` at a concrete duplicate entry
set. -/
theorem duplicate_leaf_policies_witness :
    (parse [("a", .str "1"), ("a", .str "2")]).1 =
      .rejected (freshPath (getPaths "a") (.str "1"))
        [("message", "Entry with the same name is not supported")]
  ∧ (Legacy.parse [("a", .str "1"), ("a", .str "2")]).1 =
      some (.accepted (freshPath (getPaths "a") (.str "2"))) :=
  duplicate_leaf_policies "a" "1" "2" (by decide) (by decide) (by decide) (by decide)

lemma takeWhile_prefix_stop {α : Type} (p : α → Bool) (xs : List α) (y : α)
    (ys : List α) (hx : ∀ x ∈ xs, p x = true) (hy : p y = false) :
    (xs ++ y :: ys).takeWhile p = xs := by
  induction xs with
  | nil => simp [List.takeWhile_cons, hy]
  | cons a xs ih =>
    have ha : p a = true := hx a (by simp)
    simp only [List.cons_append, List.takeWhile_cons, ha, if_true]
    rw [ih (fun x hxm => hx x (by simp [hxm]))]

/-- The pattern `(\w+)\[(\d+)\]` matches at the very start of
`word ++ '[' ++ digits ++ ']' ++ anything`, capturing exactly the word and
the digits. -/
lemma matchFrom_complete (k ds rest : List Char) (hk : k ≠ [])
    (hkw : ∀ c ∈ k, wordChar c = true) (hds : ds ≠ [])
    (hdd : ∀ c ∈ ds, c.isDigit = true) :
    matchFrom (k ++ '[' :: (ds ++ ']' :: rest)) = some (k, ds) := by
  have hrun := takeWhile_prefix_stop wordChar k '[' (ds ++ ']' :: rest) hkw (by decide)
  have hds2 := takeWhile_prefix_stop Char.isDigit ds ']' rest hdd (by decide)
  have hkne : k.isEmpty = false := by simp [List.isEmpty_iff, hk]
  have hdne : ds.isEmpty = false := by simp [List.isEmpty_iff, hds]
  unfold matchFrom
  simp only [hrun, hkne, Bool.false_eq_true, if_false, List.drop_left, hds2, hdne]

/-- A successful anchored match is in particular the leftmost one. -/
lemma execPattern_of_matchFrom (cs : List Char) (r : List Char × List Char)
    (hm : matchFrom cs = some r) : execPattern cs = some r := by
  cases cs with
  | nil => simp [matchFrom, List.takeWhile] at hm
  | cons c cs' =>
    unfold execPattern
    rw [hm]

lemma splitDot_no_dot (cs : List Char) (h : '.' ∉ cs) : splitDot cs = [cs] := by
  induction cs with
  | nil => rfl
  | cons c cs ih =>
    have hc : ¬ c = '.' := fun hc => h (by simp [hc])
    unfold splitDot
    rw [if_neg hc, ih (fun hm => h (by simp [hm]))]

/-- The characters carried by the steps of a decoded path (indices rendered
back in decimal). -/
def stepChars : Step → List Char
  | .key k => k.data
  | .idx n => natDigits n

/-- All characters of a path. -/
def pathChars (l : List Step) : List Char :=
  l.flatMap stepChars

lemma data_ne_nil_of_ne_empty (s : String) (h : s.data ≠ []) : s ≠ "" :=
  fun h' => h (by rw [h'])

/-- C4 (counterexample): the bracket pattern is *not* anchored, so a segment
that merely contains a match contributes only the matched key and index and
silently drops the rest: in `"a[0]b"` the character `b` is in the name but
in no step of the decoded path. -/
theorem getPaths_drops_chars_cex :
    getPaths "a[0]b" = [Step.key "a", Step.idx 0]
  ∧ 'b' ∈ "a[0]b".data
  ∧ 'b' ∉ pathChars (getPaths "a[0]b") :=
  ⟨by decide, by decide, by decide⟩

/-- C4 (amended): `getPaths` splits on `'.'`; a segment of the whole form
`key[n]` yields the two steps `key` then `n`; a segment in which the
(unanchored) pattern finds no match at any position is passed through
verbatim as one key step; the function is total and the empty name decodes
to the empty path — but a segment that properly *contains* a match yields
only the two steps of the leftmost match, silently dropping the remaining
characters (e.g. `"a[0]b"`). -/
theorem getPaths_segment_shape :
    (∀ (k : String) (ds : List Char), k.data ≠ [] →
      (∀ c ∈ k.data, wordChar c = true) → ds ≠ [] →
      (∀ c ∈ ds, c.isDigit = true) →
      getPaths (k ++ "[" ++ String.mk ds ++ "]") =
        [Step.key k, Step.idx (digitsToNat ds)])
  ∧ (∀ seg : String, seg ≠ "" → '.' ∉ seg.data → execPattern seg.data = none →
      getPaths seg = [Step.key seg])
  ∧ getPaths "" = []
  ∧ getPaths "a[0]b" = [Step.key "a", Step.idx 0] := by
  refine ⟨?_, ?_, rfl, by decide⟩
  · intro k ds hk hkw hds hdd
    have hdata : (k ++ "[" ++ String.mk ds ++ "]").data =
        k.data ++ '[' :: (ds ++ ']' :: []) := by
      simp [String.data_append]
    have hnodot : '.' ∉ k.data ++ '[' :: (ds ++ ']' :: []) := by
      intro hm
      simp only [List.mem_append, List.mem_cons, List.not_mem_nil, or_false] at hm
      rcases hm with h1 | h2 | h3 | h4
      · have := hkw '.' h1
        simp [wordChar] at this
      · exact absurd h2 (by decide)
      · have := hdd '.' h3
        simp at this
      · exact absurd h4 (by decide)
    have hne : (k ++ "[" ++ String.mk ds ++ "]") ≠ "" := by
      apply data_ne_nil_of_ne_empty
      rw [hdata]
      simp
    unfold getPaths
    rw [if_neg hne, hdata, splitDot_no_dot _ hnodot]
    rw [List.flatMap_cons, List.flatMap_nil, List.append_nil]
    unfold segSteps
    rw [execPattern_of_matchFrom _ _ (matchFrom_complete k.data ds [] hk hkw hds hdd)]
  · intro seg hne hnodot hexec
    unfold getPaths
    rw [if_neg hne, splitDot_no_dot _ hnodot]
    rw [List.flatMap_cons, List.flatMap_nil, List.append_nil]
    unfold segSteps
    rw [hexec]

/-- Witness for `getPaths_segment_shape` at concrete segments. -/
theorem getPaths_segment_shape_witness :
    getPaths ("ab" ++ "[" ++ String.mk ['1', '2'] ++ "]") =
      [Step.key "ab", Step.idx 12]
  ∧ getPaths "x-y" = [Step.key "x-y"] :=
  ⟨getPaths_segment_shape.1 "ab" ['1', '2'] (by decide) (by decide) (by decide)
      (by decide),
    getPaths_segment_shape.2.1 "x-y" (by decide) (by decide) (by decide)⟩

lemma natDigitsAux_irrel (n : Nat) : ∀ (f1 f2 : Nat), n < f1 → n < f2 →
    natDigitsAux n f1 = natDigitsAux n f2 := by
  induction n using Nat.strong_induction_on with
  | _ n ih =>
    intro f1 f2 h1 h2
    cases f1 with
    | zero => omega
    | succ a =>
      cases f2 with
      | zero => omega
      | succ b =>
        unfold natDigitsAux
        by_cases hn : n < 10
        · simp [hn]
        · have hlt : n / 10 < n := Nat.div_lt_self (by omega) (by omega)
          simp only [hn, if_false]
          rw [ih (n / 10) hlt a b (by omega) (by omega)]

/-- Unconditional unfolding equation for `natDigits`. -/
lemma natDigits_eq (n : Nat) :
    natDigits n = if n < 10 then [Nat.digitChar n]
      else natDigits (n / 10) ++ [Nat.digitChar (n % 10)] := by
  by_cases hn : n < 10
  · simp [natDigits, natDigitsAux, hn]
  · have hlt : n / 10 < n := Nat.div_lt_self (by omega) (by omega)
    simp only [hn, if_false]
    show natDigitsAux n (n + 1) = _
    rw [show natDigitsAux n (n + 1) =
        natDigitsAux (n / 10) n ++ [Nat.digitChar (n % 10)] from by
      conv_lhs => rw [natDigitsAux]
      rw [if_neg hn]]
    unfold natDigits
    rw [natDigitsAux_irrel (n / 10) n (n / 10 + 1) (by omega) (by omega)]

lemma digitChar_isDigit (d : Nat) (h : d < 10) :
    (Nat.digitChar d).isDigit = true := by
  interval_cases d <;> decide

lemma digitChar_toNat (d : Nat) (h : d < 10) :
    (Nat.digitChar d).toNat - 48 = d := by
  interval_cases d <;> decide

lemma natDigits_ne_nil (n : Nat) : natDigits n ≠ [] := by
  rw [natDigits_eq]
  split <;> simp

lemma natDigits_all_digit (n : Nat) : ∀ c ∈ natDigits n, c.isDigit = true := by
  induction n using Nat.strong_induction_on with
  | _ n ih =>
    intro c hc
    rw [natDigits_eq] at hc
    by_cases hn : n < 10
    · simp only [hn, if_true, List.mem_singleton] at hc
      subst hc
      exact digitChar_isDigit n hn
    · have hlt : n / 10 < n := Nat.div_lt_self (by omega) (by omega)
      simp only [hn, if_false, List.mem_append, List.mem_singleton] at hc
      rcases hc with hc | hc
      · exact ih (n / 10) hlt c hc
      · subst hc
        exact digitChar_isDigit (n % 10) (by omega)

lemma foldl_natDigits (n : Nat) : ∀ acc : Nat,
    List.foldl (fun a c => a * 10 + (c.toNat - 48)) acc (natDigits n) =
      acc * 10 ^ (natDigits n).length + n := by
  induction n using Nat.strong_induction_on with
  | _ n ih =>
    intro acc
    rw [natDigits_eq]
    by_cases hn : n < 10
    · simp only [hn, if_true, List.foldl_cons, List.foldl_nil, List.length_singleton]
      rw [digitChar_toNat n hn, pow_one]
    · have hlt : n / 10 < n := Nat.div_lt_self (by omega) (by omega)
      simp only [hn, if_false, List.foldl_append, List.foldl_cons, List.foldl_nil,
        List.length_append, List.length_singleton]
      rw [ih (n / 10) hlt acc, digitChar_toNat (n % 10) (by omega)]
      rw [pow_succ, ← mul_assoc]
      omega

lemma digitsToNat_natDigits (n : Nat) : digitsToNat (natDigits n) = n := by
  unfold digitsToNat
  rw [foldl_natDigits n 0]
  omega

lemma matchFrom_sound (cs : List Char) (k ds : List Char)
    (h : matchFrom cs = some (k, ds)) :
    k ≠ [] ∧ (∀ c ∈ k, wordChar c = true) ∧ ds ≠ [] ∧ (∀ c ∈ ds, c.isDigit = true) := by
  unfold matchFrom at h
  by_cases hr : (cs.takeWhile wordChar).isEmpty
  · simp [hr] at h
  · simp only [hr, Bool.false_eq_true, if_false] at h
    cases hdrop : cs.drop (cs.takeWhile wordChar).length with
    | nil => rw [hdrop] at h; simp at h
    | cons c rest =>
      rw [hdrop] at h
      by_cases hc : c = '['
      · subst hc
        simp only at h
        by_cases hd : (rest.takeWhile Char.isDigit).isEmpty
        · simp [hd] at h
        · simp only [hd, Bool.false_eq_true, if_false] at h
          cases hdrop2 : rest.drop (rest.takeWhile Char.isDigit).length with
          | nil => rw [hdrop2] at h; simp at h
          | cons c2 rest2 =>
            rw [hdrop2] at h
            by_cases hc2 : c2 = ']'
            · subst hc2
              simp only [Option.some.injEq, Prod.mk.injEq] at h
              obtain ⟨hk, hds⟩ := h
              subst hk
              subst hds
              refine ⟨by simpa [List.isEmpty_iff] using hr, ?_,
                by simpa [List.isEmpty_iff] using hd, ?_⟩
              · intro c hc
                exact List.mem_takeWhile_imp hc
              · intro c hc
                exact List.mem_takeWhile_imp hc
            · rw [show (match c2 :: rest2 with
                  | ']' :: _ => some (cs.takeWhile wordChar, rest.takeWhile Char.isDigit)
                  | x => none) = none from by
                cases c2 <;> simp_all] at h
              simp at h
      · rw [show (match c :: rest with
            | '[' :: rest => (fun rest =>
                if (rest.takeWhile Char.isDigit).isEmpty = true then none
                else match rest.drop (rest.takeWhile Char.isDigit).length with
                  | ']' :: _ => some (cs.takeWhile wordChar, rest.takeWhile Char.isDigit)
                  | x => none) rest
            | x => none) = none from by
          cases c <;> simp_all] at h
        simp at h

lemma execPattern_sound (cs : List Char) : ∀ (k ds : List Char),
    execPattern cs = some (k, ds) →
    k ≠ [] ∧ (∀ c ∈ k, wordChar c = true) ∧ ds ≠ [] ∧ (∀ c ∈ ds, c.isDigit = true) := by
  induction cs with
  | nil => intro k ds h; simp [execPattern] at h
  | cons c cs ih =>
    intro k ds h
    unfold execPattern at h
    cases hm : matchFrom (c :: cs) with
    | some r =>
      rw [hm] at h
      cases r with
      | mk rk rds =>
        simp only [Option.some.injEq, Prod.mk.injEq] at h
        obtain ⟨hk, hds⟩ := h
        subst hk
        subst hds
        exact matchFrom_sound (c :: cs) _ _ hm
    | none =>
      rw [hm] at h
      exact ih k ds h

lemma splitDot_mem_no_dot (cs : List Char) :
    ∀ s ∈ splitDot cs, '.' ∉ s := by
  induction cs with
  | nil => intro s hs; simp [splitDot] at hs; simp [hs]
  | cons c cs ih =>
    intro s hs
    unfold splitDot at hs
    by_cases hc : c = '.'
    · simp only [hc, if_true, List.mem_cons] at hs
      rcases hs with hs | hs
      · simp [hs]
      · exact ih s hs
    · rw [if_neg hc] at hs
      cases hsp : splitDot cs with
      | nil => exact absurd hsp (splitDot_ne_nil cs)
      | cons t ts =>
        rw [hsp] at hs
        simp only [List.mem_cons] at hs
        rcases hs with hs | hs
        · subst hs
          intro hm
          rcases List.mem_cons.mp hm with hm | hm
          · exact hc hm.symm
          · exact ih t (by rw [hsp]; simp) hm
        · exact ih s (by rw [hsp]; simp [hs])

lemma splitDot_append_dot (s t : List Char) (h : '.' ∉ s) :
    splitDot (s ++ '.' :: t) = s :: splitDot t := by
  induction s with
  | nil => simp [splitDot]
  | cons c s ih =>
    have hc : ¬ c = '.' := fun hcc => h (by simp [hcc])
    show splitDot (c :: (s ++ '.' :: t)) = (c :: s) :: splitDot t
    conv_lhs => unfold splitDot
    rw [if_neg hc, ih (fun hm => h (by simp [hm]))]

/-- Join segments with `'.'` (the inverse of `splitDot` on dot-free
segments). -/
def joinDot : List (List Char) → List Char
  | [] => []
  | [s] => s
  | s :: ss => s ++ '.' :: joinDot ss

lemma joinDot_cons (x : List Char) (ls : List (List Char)) :
    joinDot (x :: ls) = x ++ ls.flatMap (fun t => '.' :: t) := by
  induction ls generalizing x with
  | nil => simp [joinDot]
  | cons y ls ih =>
    rw [show joinDot (x :: y :: ls) = x ++ '.' :: joinDot (y :: ls) from rfl, ih y]
    simp

lemma splitDot_join (ss : List (List Char)) (hne : ss ≠ [])
    (h : ∀ s ∈ ss, '.' ∉ s) : splitDot (joinDot ss) = ss := by
  induction ss with
  | nil => exact absurd rfl hne
  | cons s ss ih =>
    cases ss with
    | nil =>
      rw [show joinDot [s] = s from rfl]
      exact splitDot_no_dot s (h s (by simp))
    | cons s2 ss2 =>
      rw [show joinDot (s :: s2 :: ss2) = s ++ '.' :: joinDot (s2 :: ss2) from rfl]
      rw [splitDot_append_dot s _ (h s (by simp))]
      rw [ih (by simp) (fun t ht => h t (by simp [ht]))]

/-- How one decoded segment is re-rendered by `getName`: a non-matching
segment verbatim, a matching one as `key[n]` with the index in canonical
decimal. -/
def segRender (seg : List Char) : List Char :=
  match execPattern seg with
  | none => seg
  | some (k, ds) => k ++ '[' :: (natDigits (digitsToNat ds) ++ ']' :: [])

lemma segRender_ne_nil (seg : List Char) (h : seg ≠ []) : segRender seg ≠ [] := by
  unfold segRender
  cases hexec : execPattern seg with
  | none => exact h
  | some r =>
    cases r with
    | mk k ds => simp

lemma segRender_no_dot (seg : List Char) (h : '.' ∉ seg) : '.' ∉ segRender seg := by
  unfold segRender
  cases hexec : execPattern seg with
  | none => exact h
  | some r =>
    cases r with
    | mk k ds =>
      obtain ⟨_, hkw, _, hdd⟩ := execPattern_sound seg k ds hexec
      intro hm
      rcases List.mem_append.mp hm with h1 | h2
      · have := hkw '.' h1
        simp [wordChar] at this
      · rcases List.mem_cons.mp h2 with h3 | h4
        · exact absurd h3 (by decide)
        · rcases List.mem_append.mp h4 with h5 | h6
          · have := natDigits_all_digit (digitsToNat ds) '.' h5
            simp at this
          · rcases List.mem_cons.mp h6 with h7 | h8
            · exact absurd h7 (by decide)
            · simp at h8

/-- Re-decoding a rendered segment yields the segment's original steps. -/
lemma segSteps_segRender (seg : List Char) :
    segSteps (segRender seg) = segSteps seg := by
  unfold segRender
  cases hexec : execPattern seg with
  | none => rfl
  | some r =>
    cases r with
    | mk k ds =>
      obtain ⟨hk, hkw, hds, hdd⟩ := execPattern_sound seg k ds hexec
      have h1 : execPattern (k ++ '[' :: (natDigits (digitsToNat ds) ++ ']' :: [])) =
          some (k, natDigits (digitsToNat ds)) :=
        execPattern_of_matchFrom _ _ (matchFrom_complete k _ [] hk hkw
          (natDigits_ne_nil _) (natDigits_all_digit _))
      unfold segSteps
      rw [h1, hexec]
      simp [digitsToNat_natDigits]

lemma flatMap_map_segSteps (l : List (List Char)) :
    (l.map segRender).flatMap segSteps = l.flatMap segSteps := by
  induction l with
  | nil => rfl
  | cons s ss ih =>
    rw [List.map_cons, List.flatMap_cons, List.flatMap_cons, segSteps_segRender, ih]

lemma data_eq_nil_iff (s : String) : s.data = [] ↔ s = "" := by
  constructor
  · intro h
    cases s with
    | mk d => simp_all
  · intro h
    simp [h]

lemma data_dot : ("." : String).data = ['.'] := rfl

lemma data_lbrack : ("[" : String).data = ['['] := rfl

lemma data_rbrack : ("]" : String).data = [']'] := rfl

lemma data_mk (l : List Char) : (String.mk l).data = l := rfl

lemma getNameStep_key (acc k : String) (ha : acc ≠ "") (hk : k ≠ "") :
    getNameStep acc (Step.key k) = acc ++ "." ++ k := by
  simp [getNameStep, ha, hk]

lemma getNameStep_idx (acc : String) (n : Nat) (ha : acc ≠ "") :
    getNameStep acc (Step.idx n) =
      acc ++ "[" ++ String.mk (natDigits n) ++ "]" := by
  simp [getNameStep, ha]

lemma foldl_segSteps_data (seg : List Char) (acc : String) (ha : acc ≠ "")
    (hs : seg ≠ []) :
    (List.foldl getNameStep acc (segSteps seg)).data =
      acc.data ++ '.' :: segRender seg := by
  unfold segSteps segRender
  cases hexec : execPattern seg with
  | none =>
    simp only [List.foldl_cons, List.foldl_nil]
    rw [getNameStep_key acc ⟨seg⟩ ha
      (fun h => hs (congrArg String.data h))]
    simp [String.data_append, data_dot, data_mk]
  | some r =>
    cases r with
    | mk k ds =>
      obtain ⟨hk, _, _, _⟩ := execPattern_sound seg k ds hexec
      simp only [List.foldl_cons, List.foldl_nil]
      rw [getNameStep_key acc ⟨k⟩ ha (fun h => hk (congrArg String.data h))]
      rw [getNameStep_idx _ (digitsToNat ds) (by
        apply data_ne_nil_of_ne_empty
        simp [String.data_append, data_dot, data_mk, data_eq_nil_iff, ha])]
      simp [String.data_append, data_dot, data_mk, data_lbrack, data_rbrack]

lemma foldl_segSteps_first (seg : List Char) (hs : seg ≠ []) :
    (List.foldl getNameStep "" (segSteps seg)).data = segRender seg := by
  unfold segSteps segRender
  cases hexec : execPattern seg with
  | none =>
    simp [getNameStep, data_mk]
  | some r =>
    cases r with
    | mk k ds =>
      obtain ⟨hk, _, _, _⟩ := execPattern_sound seg k ds hexec
      simp only [List.foldl_cons, List.foldl_nil]
      rw [show getNameStep "" (Step.key ⟨k⟩) = String.mk k from by
        simp [getNameStep]]
      rw [getNameStep_idx _ (digitsToNat ds)
        (fun h => hk (congrArg String.data h))]
      simp [String.data_append, data_mk, data_lbrack, data_rbrack]

lemma foldl_flatMap_data : ∀ (segs : List (List Char)) (acc : String),
    acc ≠ "" → (∀ s ∈ segs, s ≠ []) →
    (List.foldl getNameStep acc (segs.flatMap segSteps)).data =
      acc.data ++ segs.flatMap (fun s => '.' :: segRender s) := by
  intro segs
  induction segs with
  | nil =>
    intro acc ha _
    simp
  | cons s ss ih =>
    intro acc ha hall
    rw [List.flatMap_cons, List.foldl_append]
    have hseg := foldl_segSteps_data s acc ha (hall s (by simp))
    have hne : List.foldl getNameStep acc (segSteps s) ≠ "" := by
      apply data_ne_nil_of_ne_empty
      rw [hseg]
      simp
    rw [ih _ hne (fun t ht => hall t (by simp [ht])), hseg, List.flatMap_cons]
    simp

lemma getName_data (s0 : List Char) (rest : List (List Char)) (h0 : s0 ≠ [])
    (hall : ∀ s ∈ rest, s ≠ []) :
    (getName ((s0 :: rest).flatMap segSteps)).data =
      segRender s0 ++ rest.flatMap (fun s => '.' :: segRender s) := by
  unfold getName
  rw [List.flatMap_cons, List.foldl_append]
  have h1 := foldl_segSteps_first s0 h0
  have hne : List.foldl getNameStep "" (segSteps s0) ≠ "" := by
    apply data_ne_nil_of_ne_empty
    rw [h1]
    exact segRender_ne_nil s0 h0
  rw [foldl_flatMap_data rest _ hne hall, h1]

lemma flatMap_dot_map (l : List (List Char)) :
    l.flatMap (fun s => '.' :: segRender s) =
      (l.map segRender).flatMap (fun t => '.' :: t) := by
  induction l with
  | nil => rfl
  | cons t ts ih =>
    rw [List.map_cons, List.flatMap_cons, List.flatMap_cons, ih]

/-- The name class quantified over by the path round-trip claim — "a field
name consisting only of word characters, dots, and bracketed non-negative
integers" — as a scanner: mode 0 outside brackets (word characters and dots
allowed, `[` opens a group), mode 1 just after `[` (at least one digit
required), mode 2 inside the digits (digits, or `]` closing the group). -/
def classScan : Nat → List Char → Bool
  | 0, [] => true
  | 0, c :: rest =>
    if c = '[' then classScan 1 rest
    else (wordChar c || c = '.') && classScan 0 rest
  | 1, c :: rest => c.isDigit && classScan 2 rest
  | 2, c :: rest =>
    if c = ']' then classScan 0 rest else (c.isDigit && classScan 2 rest)
  | _, _ => false

/-- Formalisation of the claim's name class (see `classScan`). -/
def wellFormedName (s : String) : Bool :=
  classScan 0 s.data

/-- C2 (counterexample): `"a..b"` consists only of word characters and
dots, but its decoded path `[key "a", key "", key "b"]` does not survive
the encode/decode round trip — `getName` drops the empty key, and the
re-decoded path loses the empty segment. -/
theorem decode_encode_round_trip_cex :
    wellFormedName "a..b" = true
  ∧ getPaths (getName (getPaths "a..b")) ≠ getPaths "a..b" :=
  ⟨by decide, by decide⟩

/-- C2 (amended): for every name made only of word characters, dots and
bracketed non-negative integers *whose dot-separated segments are all
non-empty*, decoding, re-encoding and decoding again is the identity:
`getPaths (getName (getPaths name)) = getPaths name`. -/
theorem decode_encode_round_trip (name : String)
    (h1 : wellFormedName name = true)
    (h2 : ∀ seg ∈ splitDot name.data, seg ≠ []) :
    getPaths (getName (getPaths name)) = getPaths name := by
  have hname : name ≠ "" := by
    intro he
    subst he
    exact h2 [] (by simp [splitDot]) rfl
  obtain ⟨s0, rest, hsegs⟩ : ∃ s0 rest, splitDot name.data = s0 :: rest := by
    cases hsp : splitDot name.data with
    | nil => exact absurd hsp (splitDot_ne_nil _)
    | cons a b => exact ⟨a, b, rfl⟩
  have h0 : s0 ≠ [] := h2 s0 (by rw [hsegs]; simp)
  have hall : ∀ s ∈ rest, s ≠ [] := fun s hs => h2 s (by rw [hsegs]; simp [hs])
  have hPe : getPaths name = (s0 :: rest).flatMap segSteps := by
    unfold getPaths
    rw [if_neg hname, hsegs]
  have hgdata := getName_data s0 rest h0 hall
  have hjoin : segRender s0 ++ rest.flatMap (fun s => '.' :: segRender s) =
      joinDot ((s0 :: rest).map segRender) := by
    rw [List.map_cons, joinDot_cons, flatMap_dot_map]
  have hnd : ∀ s ∈ (s0 :: rest).map segRender, '.' ∉ s := by
    intro s hs
    rcases List.mem_map.mp hs with ⟨t, ht, rfl⟩
    exact segRender_no_dot t (splitDot_mem_no_dot name.data t (by rw [hsegs]; exact ht))
  have hgne : getName ((s0 :: rest).flatMap segSteps) ≠ "" := by
    apply data_ne_nil_of_ne_empty
    rw [hgdata]
    intro hz
    rcases List.append_eq_nil.mp hz with ⟨hz1, _⟩
    exact segRender_ne_nil s0 h0 hz1
  rw [hPe]
  conv_lhs => unfold getPaths
  rw [if_neg hgne, hgdata, hjoin, splitDot_join _ (by simp) hnd,
    flatMap_map_segSteps]

/-- Witness for `decode_encode_round_trip` at a concrete well-formed
name. -/
theorem decode_encode_round_trip_witness :
    getPaths (getName (getPaths "tasks[0].content")) = getPaths "tasks[0].content" :=
  decode_encode_round_trip "tasks[0].content" (by decide) (by decide)

lemma hexVal_digitChar (d : Nat) (h : d < 16) :
    hexVal (Nat.digitChar d) = some d := by
  interval_cases d <;> decide

/-- Parsing one escaped character: the parser undoes `escapeChar` and
continues. -/
lemma parseStrChars_escape_one (c : Char) (M : List Char) :
    parseStrChars (escapeChar c ++ M) =
      (parseStrChars M).map (fun r => (c :: r.1, r.2)) := by
  by_cases h1 : c = '\"'
  · subst h1
    rw [show escapeChar '\"' = ['\\', '\"'] from by decide]
    simp [parseStrChars, escDecode]
  · by_cases h2 : c = '\\'
    · subst h2
      rw [show escapeChar '\\' = ['\\', '\\'] from by decide]
      simp [parseStrChars, escDecode]
    · by_cases h3 : c = '\x08'
      · subst h3
        rw [show escapeChar '\x08' = ['\\', 'b'] from by decide]
        simp [parseStrChars, escDecode]
      · by_cases h4 : c = '\x0c'
        · subst h4
          rw [show escapeChar '\x0c' = ['\\', 'f'] from by decide]
          simp [parseStrChars, escDecode]
        · by_cases h5 : c = '\n'
          · subst h5
            rw [show escapeChar '\n' = ['\\', 'n'] from by decide]
            simp [parseStrChars, escDecode]
          · by_cases h6 : c = '\r'
            · subst h6
              rw [show escapeChar '\r' = ['\\', 'r'] from by decide]
              simp [parseStrChars, escDecode]
            · by_cases h7 : c = '\t'
              · subst h7
                rw [show escapeChar '\t' = ['\\', 't'] from by decide]
                simp [parseStrChars, escDecode]
              · by_cases h8 : c.toNat < 32
                · rw [show escapeChar c = ['\\', 'u', '0', '0',
                      Nat.digitChar (c.toNat / 16), Nat.digitChar (c.toNat % 16)] from by
                    simp [escapeChar, h1, h2, h3, h4, h5, h6, h7, h8]]
                  have hng : (Nat.digitChar (c.toNat / 16)).isDigit = true :=
                    digitChar_isDigit _ (by omega)
                  simp only [parseStrChars, List.cons_append, List.nil_append,
                    hexVal_digitChar (c.toNat / 16) (by omega),
                    hexVal_digitChar (c.toNat % 16) (by omega),
                    show hexVal '0' = some 0 from rfl]
                  have harith : ((0 * 16 + 0) * 16 + c.toNat / 16) * 16 + c.toNat % 16 =
                      c.toNat := by omega
                  rw [harith, Char.ofNat_toNat]
                  simp
                · rw [show escapeChar c = [c] from by
                    simp [escapeChar, h1, h2, h3, h4, h5, h6, h7, h8]]
                  simp [parseStrChars, h1, h2, h8]

/-- Round trip for a whole string body. -/
lemma parseStrChars_escape (cs : List Char) : ∀ rest : List Char,
    parseStrChars (cs.flatMap escapeChar ++ '\"' :: rest) = some (cs, rest) := by
  induction cs with
  | nil =>
    intro rest
    simp [parseStrChars]
  | cons c cs ih =>
    intro rest
    rw [List.flatMap_cons, List.append_assoc, parseStrChars_escape_one, ih]
    rfl

lemma takeWhile_all {α : Type} (p : α → Bool) (l : List α)
    (h : ∀ x ∈ l, p x = true) : l.takeWhile p = l := by
  induction l with
  | nil => rfl
  | cons a l ih =>
    rw [List.takeWhile_cons, if_pos (h a (by simp))]
    rw [ih (fun x hx => h x (by simp [hx]))]

lemma natDigits_head_ne_zero (n : Nat) (h : n ≠ 0) :
    (natDigits n).head? ≠ some '0' := by
  induction n using Nat.strong_induction_on with
  | _ n ih =>
    rw [natDigits_eq]
    by_cases hn : n < 10
    · simp only [hn, if_true]
      intro hc
      simp only [List.head?_cons, Option.some.injEq] at hc
      interval_cases n
      · exact h rfl
      all_goals exact absurd hc (by decide)
    · have hlt : n / 10 < n := Nat.div_lt_self (by omega) (by omega)
      simp only [hn, if_false]
      cases hnd : natDigits (n / 10) with
      | nil => exact absurd hnd (natDigits_ne_nil _)
      | cons d tl =>
        simp only [List.cons_append, List.head?_cons]
        have hh := ih (n / 10) hlt (by omega)
        rw [hnd] at hh
        simpa using hh

lemma parseNatPart_natDigits (m : Nat) (rest : List Char)
    (h : ∀ c, rest.head? = some c → c.isDigit = false) :
    parseNatPart (natDigits m ++ rest) = some (m, rest) := by
  have htw : (natDigits m ++ rest).takeWhile Char.isDigit = natDigits m := by
    cases rest with
    | nil => rw [List.append_nil]; exact takeWhile_all _ _ (natDigits_all_digit m)
    | cons y ys => exact takeWhile_prefix_stop _ _ y ys (natDigits_all_digit m) (h y rfl)
  have hdrop : (natDigits m ++ rest).drop (natDigits m).length = rest :=
    List.drop_left _ _
  unfold parseNatPart
  rw [htw]
  split
  · exact absurd (by assumption : natDigits m = []) (natDigits_ne_nil m)
  · rename_i heq
    exfalso
    by_cases hm : m = 0
    · subst hm
      rw [show natDigits 0 = ['0'] from rfl] at heq
      simp at heq
    · exact natDigits_head_ne_zero m hm (by rw [heq]; rfl)
  · rename_i ds hne1 hne2
    rw [hdrop, digitsToNat_natDigits]

lemma digit_facts (d : Char) (h : d.isDigit = true) :
    jsonWs d = false ∧ d ≠ 'n' ∧ d ≠ 't' ∧ d ≠ 'f' ∧ d ≠ '\"' ∧ d ≠ '[' ∧
      d ≠ '\x7b' ∧ d ≠ ']' ∧ d ≠ '\x7d' ∧ d ≠ '-' ∧ d ≠ ',' := by
  refine ⟨?_, ?_, ?_, ?_, ?_, ?_, ?_, ?_, ?_, ?_, ?_⟩
  · cases hw : jsonWs d
    · rfl
    · exfalso
      unfold jsonWs at hw
      simp only [Bool.or_eq_true, decide_eq_true_eq] at hw
      rcases hw with ((h1 | h1) | h1) | h1 <;> subst h1 <;> exact absurd h (by decide)
  all_goals exact fun hc => absurd (hc ▸ h) (by decide)

/-- Every pure value stringifies, and the first character of the output is
a value-start token: not whitespace, not a closing bracket or brace, not a
comma. -/
lemma stringify_head_start (v : JsVal) (hp : isPure v = true) :
    ∃ c tl, stringifyVal v = some (c :: tl) ∧ jsonWs c = false ∧ c ≠ ']' ∧
      c ≠ '\x7d' ∧ c ≠ ',' := by
  cases v with
  | undef => simp [isPure] at hp
  | file _ => simp [isPure] at hp
  | null => exact ⟨'n', _, rfl, by decide, by decide, by decide, by decide⟩
  | bool b =>
    cases b
    · exact ⟨'f', _, rfl, by decide, by decide, by decide, by decide⟩
    · exact ⟨'t', _, rfl, by decide, by decide, by decide, by decide⟩
  | num n =>
    by_cases hn : n < 0
    · refine ⟨'-', natDigits (-n).toNat, ?_, by decide, by decide, by decide, by decide⟩
      simp [stringifyVal, intRepr, hn]
    · cases hnd : natDigits n.toNat with
      | nil => exact absurd hnd (natDigits_ne_nil _)
      | cons d tl =>
        have hd : d.isDigit = true := natDigits_all_digit _ d (by rw [hnd]; simp)
        obtain ⟨hws, _, _, _, _, _, _, hbr, hbc, _, hcm⟩ := digit_facts d hd
        refine ⟨d, tl, ?_, hws, hbr, hbc, hcm⟩
        simp [stringifyVal, intRepr, hn, hnd]
  | str s =>
    exact ⟨'\"', _, rfl, by decide, by decide, by decide, by decide⟩
  | arr xs =>
    exact ⟨'[', _, rfl, by decide, by decide, by decide, by decide⟩
  | obj kvs =>
    exact ⟨'\x7b', _, rfl, by decide, by decide, by decide, by decide⟩

lemma skipWs_cons_of_not_ws (c : Char) (tl : List Char) (h : jsonWs c = false) :
    skipWs (c :: tl) = c :: tl := by
  simp [skipWs, List.dropWhile_cons, h]

lemma parseVal_digit_entry (f : Nat) (d : Char) (hd : d.isDigit = true)
    (tl : List Char) :
    parseVal (f + 1) (d :: tl) =
      (parseNum (d :: tl)).map (fun r => (.num r.1, r.2)) := by
  obtain ⟨hws, h1, h2, h3, h4, h5, h6, _, _, _, _⟩ := digit_facts d hd
  rw [parseVal, skipWs_cons_of_not_ws d tl hws]
  simp only [h1, h2, h3, h4, h5, h6, if_false, reduceIte, hd, Bool.or_true, if_true]

lemma parseNum_digit (d : Char) (tl : List Char) (hd : d ≠ '-') :
    parseNum (d :: tl) = (parseNatPart (d :: tl)).map (fun r => ((r.1 : Int), r.2)) := by
  simp [parseNum, hd]

lemma parseVal_null_entry (f : Nat) (tl : List Char) :
    parseVal (f + 1) ('n' :: tl) =
      (match tl with
       | 'u' :: 'l' :: 'l' :: r => some (.null, r)
       | _ => none) := rfl

lemma parseVal_true_entry (f : Nat) (tl : List Char) :
    parseVal (f + 1) ('t' :: tl) =
      (match tl with
       | 'r' :: 'u' :: 'e' :: r => some (.bool true, r)
       | _ => none) := rfl

lemma parseVal_false_entry (f : Nat) (tl : List Char) :
    parseVal (f + 1) ('f' :: tl) =
      (match tl with
       | 'a' :: 'l' :: 's' :: 'e' :: r => some (.bool false, r)
       | _ => none) := rfl

lemma parseVal_quote_entry (f : Nat) (tl : List Char) :
    parseVal (f + 1) ('\"' :: tl) =
      (parseStrChars tl).map (fun r => (.str (String.mk r.1), r.2)) := rfl

lemma parseVal_arr_entry (f : Nat) (tl : List Char) :
    parseVal (f + 1) ('[' :: tl) =
      (match skipWs tl with
       | ']' :: r => some (.arr [], r)
       | _ => (parseItems f tl).map (fun r => (.arr r.1, r.2))) := rfl

lemma parseVal_obj_entry (f : Nat) (tl : List Char) :
    parseVal (f + 1) ('\x7b' :: tl) =
      (match skipWs tl with
       | '\x7d' :: r => some (.obj [], r)
       | _ => (parseFields f tl).map (fun r => (.obj r.1, r.2))) := rfl

lemma parseVal_neg_entry (f : Nat) (tl : List Char) :
    parseVal (f + 1) ('-' :: tl) =
      (parseNum ('-' :: tl)).map (fun r => (.num r.1, r.2)) := rfl

/-- The rendering of a non-empty item list starts with a value-start
character. -/
lemma stringifyItems_head (x : JsVal) (xs' : List JsVal) (hpx : isPure x = true) :
    ∃ c ctl, stringifyItems (x :: xs') = c :: ctl ∧ jsonWs c = false ∧
      c ≠ ']' ∧ c ≠ '\x7d' := by
  obtain ⟨c, tl, hx, hw, hb, hb2, _⟩ := stringify_head_start x hpx
  cases xs' with
  | nil => exact ⟨c, tl, by simp [stringifyItems, hx], hw, hb, hb2⟩
  | cons y ys =>
    refine ⟨c, tl ++ ',' :: stringifyItems (y :: ys), ?_, hw, hb, hb2⟩
    rw [show stringifyItems (x :: y :: ys) =
      ((stringifyVal x).getD "null".data) ++ ',' :: stringifyItems (y :: ys) from rfl]
    simp [hx]

/-- The rendering of a non-empty pure field list starts with the opening
quote of the first key. -/
lemma stringifyFields_head (k : String) (v : JsVal)
    (kvs' : List (String × JsVal)) (hpv : isPure v = true) :
    ∃ tl, stringifyFields ((k, v) :: kvs') = '\"' :: tl := by
  obtain ⟨c, ctl, hx, _, _, _, _⟩ := stringify_head_start v hpv
  rw [show stringifyFields ((k, v) :: kvs') =
    (match stringifyVal v with
     | none => stringifyFields kvs'
     | some sv =>
       match stringifyFields kvs' with
       | [] => strLit k ++ ':' :: sv
       | r => (strLit k ++ ':' :: sv) ++ ',' :: r) from rfl]
  rw [hx]
  cases hf : stringifyFields kvs' with
  | nil =>
    refine ⟨k.data.flatMap escapeChar ++ '\"' :: ':' :: c :: ctl, ?_⟩
    simp [strLit]
  | cons a b =>
    refine ⟨k.data.flatMap escapeChar ++ '\"' :: ':' :: c :: ctl ++ ',' :: a :: b, ?_⟩
    simp [strLit]

/-- `JSON.parse` undoes `JSON.stringify` on pure values: the three-part
statement (values / array items / object fields) proved by strong induction
on the parser fuel. -/
lemma stringify_parse_aux : ∀ fuel : Nat,
    (∀ (v : JsVal) (out rest : List Char), isPure v = true →
      stringifyVal v = some out → out.length < fuel →
      (∀ c, rest.head? = some c → c.isDigit = false) →
      parseVal fuel (out ++ rest) = some (v, rest))
  ∧ (∀ (xs : List JsVal) (rest : List Char), xs ≠ [] → isPureItems xs = true →
      (stringifyItems xs).length + 2 ≤ fuel →
      parseItems fuel (stringifyItems xs ++ ']' :: rest) = some (xs, rest))
  ∧ (∀ (kvs : List (String × JsVal)) (rest : List Char), kvs ≠ [] →
      isPureFields kvs = true → (stringifyFields kvs).length + 2 ≤ fuel →
      parseFields fuel (stringifyFields kvs ++ '\x7d' :: rest) = some (kvs, rest)) := by
  intro fuel
  induction fuel using Nat.strong_induction_on with
  | _ fuel ih =>
    refine ⟨?_, ?_, ?_⟩
    · intro v out rest hp hout hlen hrest
      cases fuel with
      | zero => omega
      | succ f =>
        cases v with
        | undef => simp [stringifyVal] at hout
        | file nm => simp [isPure] at hp
        | null =>
          simp only [stringifyVal, Option.some.injEq] at hout
          subst hout
          rfl
        | bool b =>
          cases b <;> simp only [stringifyVal, Option.some.injEq] at hout <;>
            subst hout <;> rfl
        | num n =>
          simp only [stringifyVal, Option.some.injEq] at hout
          subst hout
          unfold intRepr
          by_cases hn : n < 0
          · rw [if_pos hn]
            show parseVal (f + 1) ('-' :: (natDigits (-n).toNat ++ rest)) = _
            rw [parseVal_neg_entry]
            rw [show parseNum ('-' :: (natDigits (-n).toNat ++ rest)) =
                (parseNatPart (natDigits (-n).toNat ++ rest)).map
                  (fun r => (-(r.1 : Int), r.2)) from rfl]
            rw [parseNatPart_natDigits _ rest hrest]
            have hc : (((-n).toNat : Nat) : Int) = -n := Int.toNat_of_nonneg (by omega)
            simp [hc]
          · rw [if_neg hn]
            cases hnd : natDigits n.toNat with
            | nil => exact absurd hnd (natDigits_ne_nil _)
            | cons d tl =>
              have hd : d.isDigit = true := natDigits_all_digit _ d (by rw [hnd]; simp)
              have hdm : d ≠ '-' := fun hc => absurd (hc ▸ hd) (by decide)
              show parseVal (f + 1) (d :: (tl ++ rest)) = _
              rw [parseVal_digit_entry f d hd, parseNum_digit d _ hdm]
              rw [show (d :: (tl ++ rest) : List Char) = natDigits n.toNat ++ rest from by
                rw [hnd]; rfl]
              rw [parseNatPart_natDigits _ rest hrest]
              have hc : ((n.toNat : Nat) : Int) = n := Int.toNat_of_nonneg (by omega)
              simp [hc]
        | str s =>
          simp only [stringifyVal, Option.some.injEq] at hout
          subst hout
          rw [show strLit s ++ rest =
              '\"' :: (s.data.flatMap escapeChar ++ '\"' :: rest) from by
            simp [strLit]]
          rw [parseVal_quote_entry, parseStrChars_escape]
          rfl
        | arr xs =>
          simp only [stringifyVal, Option.some.injEq] at hout
          subst hout
          rw [show ('[' :: stringifyItems xs ++ [']']) ++ rest =
              '[' :: (stringifyItems xs ++ ']' :: rest) from by simp]
          rw [parseVal_arr_entry]
          cases xs with
          | nil => rfl
          | cons x xs' =>
            have hp2 : isPure x = true ∧ isPureItems xs' = true := by
              simp only [isPure, isPureItems, Bool.and_eq_true] at hp
              exact hp
            obtain ⟨c, ctl, hhead, hcw, hcb, _⟩ := stringifyItems_head x xs' hp2.1
            have hskip : skipWs (stringifyItems (x :: xs') ++ ']' :: rest) =
                c :: (ctl ++ ']' :: rest) := by
              rw [hhead]
              simp only [List.cons_append]
              exact skipWs_cons_of_not_ws c _ hcw
            rw [hskip]
            have harr : (stringifyItems (x :: xs')).length + 2 ≤ f := by
              simp at hlen
              omega
            have hitems := (ih f (by omega)).2.1 (x :: xs') rest (by simp)
              (by simp only [isPureItems, Bool.and_eq_true]; exact hp2) harr
            split
            · rename_i r heq
              have h1 := congrArg List.head? heq
              simp at h1
              exact absurd h1 hcb
            · rw [hitems]
              rfl
        | obj kvs =>
          simp only [stringifyVal, Option.some.injEq] at hout
          subst hout
          rw [show ('\x7b' :: stringifyFields kvs ++ ['\x7d']) ++ rest =
              '\x7b' :: (stringifyFields kvs ++ '\x7d' :: rest) from by simp]
          rw [parseVal_obj_entry]
          cases kvs with
          | nil => rfl
          | cons kv kvs' =>
            obtain ⟨k, v⟩ := kv
            have hp2 : isPure v = true ∧ isPureFields kvs' = true := by
              simp only [isPure, isPureFields, Bool.and_eq_true] at hp
              exact hp
            obtain ⟨ftl, hhead⟩ := stringifyFields_head k v kvs' hp2.1
            have hskip : skipWs (stringifyFields ((k, v) :: kvs') ++ '\x7d' :: rest) =
                '\"' :: (ftl ++ '\x7d' :: rest) := by
              rw [hhead]
              simp only [List.cons_append]
              exact skipWs_cons_of_not_ws '\"' _ (by decide)
            rw [hskip]
            have hflds : (stringifyFields ((k, v) :: kvs')).length + 2 ≤ f := by
              simp at hlen
              omega
            have hfields := (ih f (by omega)).2.2 ((k, v) :: kvs') rest (by simp)
              (by simp only [isPureFields, Bool.and_eq_true]; exact hp2) hflds
            split
            · rename_i r heq
              have h1 := congrArg List.head? heq
              simp at h1
            · rw [hfields]
              rfl
    · intro xs rest hne hp hlen
      cases fuel with
      | zero => omega
      | succ f =>
        cases xs with
        | nil => exact absurd rfl hne
        | cons x xs' =>
          have hp2 : isPure x = true ∧ isPureItems xs' = true := by
            simp only [isPureItems, Bool.and_eq_true] at hp
            exact hp
          obtain ⟨c, ctl, hx, hcw, hcb, _, _⟩ := stringify_head_start x hp2.1
          rw [parseItems]
          cases xs' with
          | nil =>
            have hsi : stringifyItems [x] = c :: ctl := by
              simp [stringifyItems, hx]
            rw [hsi]
            have hev : parseVal f ((c :: ctl) ++ ']' :: rest) = some (x, ']' :: rest) := by
              have := (ih f (by omega)).1 x (c :: ctl) (']' :: rest) hp2.1 hx
                (by rw [hsi] at hlen; simp at hlen ⊢; omega)
                (by intro c2 hc2; simp at hc2; subst hc2; decide)
              simpa using this
            rw [show (c :: ctl) ++ ']' :: rest = c :: (ctl ++ ']' :: rest) from rfl] at hev ⊢
            rw [hev]
            rfl
          | cons y ys =>
            have hsi : stringifyItems (x :: y :: ys) =
                (c :: ctl) ++ ',' :: stringifyItems (y :: ys) := by
              rw [show stringifyItems (x :: y :: ys) =
                ((stringifyVal x).getD "null".data) ++ ',' :: stringifyItems (y :: ys)
                from rfl, hx]
              rfl
            rw [hsi]
            have hev : parseVal f (c :: (ctl ++ ',' :: (stringifyItems (y :: ys) ++
                ']' :: rest))) = some (x, ',' :: (stringifyItems (y :: ys) ++ ']' :: rest)) := by
              have := (ih f (by omega)).1 x (c :: ctl)
                (',' :: (stringifyItems (y :: ys) ++ ']' :: rest)) hp2.1 hx
                (by rw [hsi] at hlen; simp at hlen ⊢; omega)
                (by intro c2 hc2; simp at hc2; subst hc2; decide)
              simpa using this
            rw [show ((c :: ctl) ++ ',' :: stringifyItems (y :: ys)) ++ ']' :: rest =
                c :: (ctl ++ ',' :: (stringifyItems (y :: ys) ++ ']' :: rest)) from by simp]
            have hitems : parseItems f (stringifyItems (y :: ys) ++ ']' :: rest) =
                some (y :: ys, rest) :=
              (ih f (by omega)).2.1 (y :: ys) rest (by simp) hp2.2
                (by rw [hsi] at hlen; simp at hlen ⊢; omega)
            simp only [hev,
              skipWs_cons_of_not_ws ',' (stringifyItems (y :: ys) ++ ']' :: rest) (by decide),
              hitems, Option.map_some']
    · intro kvs rest hne hp hlen
      cases fuel with
      | zero => omega
      | succ f =>
        cases kvs with
        | nil => exact absurd rfl hne
        | cons kv kvs' =>
          obtain ⟨k, v⟩ := kv
          have hp2 : isPure v = true ∧ isPureFields kvs' = true := by
            simp only [isPureFields, Bool.and_eq_true] at hp
            exact hp
          obtain ⟨c, ctl, hv, hcw, _, hcb2, _⟩ := stringify_head_start v hp2.1
          rw [parseFields]
          cases kvs' with
          | nil =>
            have hsf : stringifyFields [(k, v)] = strLit k ++ ':' :: (c :: ctl) := by
              rw [show stringifyFields [(k, v)] =
                (match stringifyVal v with
                 | none => stringifyFields ([] : List (String × JsVal))
                 | some sv =>
                   match stringifyFields ([] : List (String × JsVal)) with
                   | [] => strLit k ++ ':' :: sv
                   | r => (strLit k ++ ':' :: sv) ++ ',' :: r) from rfl, hv]
              rfl
            rw [hsf]
            rw [show (strLit k ++ ':' :: (c :: ctl)) ++ '\x7d' :: rest =
                '\"' :: (k.data.flatMap escapeChar ++
                  '\"' :: (':' :: ((c :: ctl) ++ '\x7d' :: rest))) from by
              simp [strLit]]
            have hev : parseVal f ((c :: ctl) ++ '\x7d' :: rest) =
                some (v, '\x7d' :: rest) := by
              have hlen2 : (c :: ctl).length < f := by
                rw [hsf] at hlen
                simp [strLit] at hlen ⊢
                omega
              exact (ih f (by omega)).1 v (c :: ctl) ('\x7d' :: rest) hp2.1 hv hlen2
                (by intro c2 hc2; simp at hc2; subst hc2; decide)
            simp only [skipWs_cons_of_not_ws '\"'
                (k.data.flatMap escapeChar ++
                  '\"' :: (':' :: ((c :: ctl) ++ '\x7d' :: rest))) (by decide),
              parseStrChars_escape,
              skipWs_cons_of_not_ws ':' ((c :: ctl) ++ '\x7d' :: rest) (by decide),
              hev, skipWs_cons_of_not_ws '\x7d' rest (by decide)]
          | cons kv2 kvs'' =>
            obtain ⟨k2, v2⟩ := kv2
            have hp3 : isPure v2 = true ∧ isPureFields kvs'' = true := by
              have := hp2.2
              simp only [isPureFields, Bool.and_eq_true] at this
              exact this
            obtain ⟨ftl2, hhead2⟩ := stringifyFields_head k2 v2 kvs'' hp3.1
            have hsf : stringifyFields ((k, v) :: (k2, v2) :: kvs'') =
                (strLit k ++ ':' :: (c :: ctl)) ++
                  ',' :: stringifyFields ((k2, v2) :: kvs'') := by
              rw [show stringifyFields ((k, v) :: (k2, v2) :: kvs'') =
                (match stringifyVal v with
                 | none => stringifyFields ((k2, v2) :: kvs'')
                 | some sv =>
                   match stringifyFields ((k2, v2) :: kvs'') with
                   | [] => strLit k ++ ':' :: sv
                   | r => (strLit k ++ ':' :: sv) ++ ',' :: r) from rfl, hv, hhead2]
            rw [hsf]
            rw [show ((strLit k ++ ':' :: (c :: ctl)) ++
                  ',' :: stringifyFields ((k2, v2) :: kvs'')) ++ '\x7d' :: rest =
                '\"' :: (k.data.flatMap escapeChar ++
                  '\"' :: (':' :: ((c :: ctl) ++
                    ',' :: (stringifyFields ((k2, v2) :: kvs'') ++ '\x7d' :: rest))))
                from by simp [strLit]]
            have hev : parseVal f ((c :: ctl) ++
                ',' :: (stringifyFields ((k2, v2) :: kvs'') ++ '\x7d' :: rest)) =
                some (v, ',' :: (stringifyFields ((k2, v2) :: kvs'') ++ '\x7d' :: rest)) := by
              have hlen2 : (c :: ctl).length < f := by
                rw [hsf] at hlen
                simp [strLit] at hlen ⊢
                omega
              exact (ih f (by omega)).1 v (c :: ctl) _ hp2.1 hv hlen2
                (by intro c2 hc2; simp at hc2; subst hc2; decide)
            have hfields : parseFields f (stringifyFields ((k2, v2) :: kvs'') ++
                '\x7d' :: rest) = some ((k2, v2) :: kvs'', rest) := by
              apply (ih f (by omega)).2.2 ((k2, v2) :: kvs'') rest (by simp) hp2.2
              rw [hsf] at hlen
              simp [strLit] at hlen
              omega
            simp only [skipWs_cons_of_not_ws '\"'
                (k.data.flatMap escapeChar ++
                  '\"' :: (':' :: ((c :: ctl) ++
                    ',' :: (stringifyFields ((k2, v2) :: kvs'') ++ '\x7d' :: rest))))
                (by decide),
              parseStrChars_escape,
              skipWs_cons_of_not_ws ':' ((c :: ctl) ++
                ',' :: (stringifyFields ((k2, v2) :: kvs'') ++ '\x7d' :: rest)) (by decide),
              hev,
              skipWs_cons_of_not_ws ','
                (stringifyFields ((k2, v2) :: kvs'') ++ '\x7d' :: rest) (by decide),
              hfields, Option.map_some']

/-- Full JSON round trip: parsing the stringified form of a pure value
recovers the value, with no input left over. -/
lemma parseJson_stringify (v : JsVal) (out : List Char)
    (hp : isPure v = true) (hout : stringifyVal v = some out) :
    parseJson (String.mk out) = some v := by
  have h := (stringify_parse_aux (out.length + 1)).1 v out [] hp hout
    (by omega) (by simp)
  simp only [List.append_nil] at h
  unfold parseJson
  rw [show (String.mk out).data = out from rfl, h]
  rfl

/-- A character list with no occurrence of the `'::'` separator. -/
def noSep : List Char → Bool
  | ':' :: ':' :: _ => false
  | _ :: rest => noSep rest
  | [] => true

/-- Unfolding `splitSep` one character at a time, when that character does
not start a `'::'` separator. -/
lemma splitSep_cons (c : Char) (rest : List Char)
    (h : c = ':' → rest.head? ≠ some ':') :
    splitSep (c :: rest) = match splitSep rest with
      | [] => [[c]]
      | s :: ss => (c :: s) :: ss := by
  rw [splitSep.eq_def]
  split
  · rename_i heq
    exact absurd heq (by simp)
  · rename_i r heq
    obtain ⟨hc, hr⟩ : c = ':' ∧ rest = ':' :: r := by
      injection heq with h1 h2
      exact ⟨h1, h2⟩
    exact absurd (by rw [hr]; rfl) (h hc)
  · rename_i heq2
    injection heq2 with h1 h2
    subst h1
    subst h2
    rfl

/-- Stepping `noSep` over a cons. -/
lemma noSep_cons (c : Char) (rest : List Char) (h : noSep (c :: rest) = true) :
    noSep rest = true := by
  rw [noSep.eq_def] at h
  split at h
  · exact absurd h (by simp)
  · rename_i heq
    injection heq with _ h2
    rw [h2]
    exact h
  · rename_i heq
    exact absurd heq (by simp)

/-- A `noSep` cons cannot continue with a colon pair. -/
lemma noSep_head (c : Char) (rest : List Char) (h : noSep (c :: rest) = true) :
    c = ':' → rest.head? ≠ some ':' := by
  intro hc hh
  cases rest with
  | nil => simp at hh
  | cons d rest' =>
    simp at hh
    subst hc hh
    simp [noSep] at h

/-- A separator-free list is a single `splitSep` part. -/
lemma splitSep_noSep (a : List Char) (h : noSep a = true) :
    splitSep a = [a] := by
  induction a with
  | nil => rfl
  | cons c rest ih =>
    rw [splitSep_cons c rest (noSep_head c rest h), ih (noSep_cons c rest h)]

/-- `splitSep` cuts at the leftmost separator: a separator-free prefix that
does not end in a colon becomes the first part. -/
lemma splitSep_append_sep (a b : List Char) (h : noSep a = true)
    (hl : a.getLast? ≠ some ':') :
    splitSep (a ++ ':' :: ':' :: b) = a :: splitSep b := by
  induction a with
  | nil => rfl
  | cons c rest ih =>
    have hstep : (c = ':') → (rest ++ ':' :: ':' :: b).head? ≠ some ':' := by
      intro hc hh
      cases rest with
      | nil => exact hl (by rw [hc]; decide)
      | cons d rest' =>
        simp at hh
        subst hc hh
        simp [noSep] at h
    have hrec := ih (noSep_cons c rest h) (by
      intro hlast
      cases rest with
      | nil => simp at hlast
      | cons d rest' =>
        exact hl (by
          rw [List.getLast?_cons_cons]
          exact hlast))
    rw [show (c :: rest) ++ ':' :: ':' :: b = c :: (rest ++ ':' :: ':' :: b) from rfl]
    rw [splitSep_cons c _ hstep, hrec]

/-- Claim C1 (counterexample): the round trip breaks as soon as the
JSON-encoded payload contains the `'::'` separator.  Serializing
`append` of the string `'a::b'` on the list `'x'` and re-parsing does not
return the command: `parseListCommand` throws (`SyntaxError`), because the
unescaped split on `'::'` truncates the payload to `'\x7b"defaultValue":"a'`. -/
theorem serialize_parse_round_trip_sep_cex :
    parseListCommand
        (serializeListCommand "x" (ListCommand.append (JsVal.str "a::b"))) =
      Except.error "SyntaxError" ∧
    ∀ r : String × String × JsVal,
      parseListCommand
          (serializeListCommand "x" (ListCommand.append (JsVal.str "a::b"))) ≠
        Except.ok r := by
  refine ⟨rfl, ?_⟩
  intro r h
  rw [show parseListCommand
      (serializeListCommand "x" (ListCommand.append (JsVal.str "a::b"))) =
      (Except.error "SyntaxError" :
        Except String (String × String × JsVal)) from rfl] at h
  simp at h

/-- Claim C1 (amended): the round trip
`parseListCommand (serializeListCommand name cmd) = ok (name, type, payload)`
holds whenever the name contains no `'::'` and does not end in `':'`, the
payload contains no `undefined`/`File` leaves, and the JSON encoding of the
payload contains no `'::'` substring. -/
theorem serialize_parse_round_trip (name : String) (cmd : ListCommand)
    (h1 : noSep name.data = true)
    (h2 : name.data.getLast? ≠ some ':')
    (h3 : isPure (cmdPayload cmd) = true)
    (h4 : noSep ((stringifyVal (cmdPayload cmd)).getD []) = true) :
    parseListCommand (serializeListCommand name cmd) =
      Except.ok (name, cmdType cmd, cmdPayload cmd) := by
  obtain ⟨l, hl⟩ : ∃ l, cmdPayload cmd = JsVal.obj l := by
    cases cmd <;> exact ⟨_, rfl⟩
  have hout : stringifyVal (cmdPayload cmd) =
      some ('\x7b' :: stringifyFields l ++ ['\x7d']) := by rw [hl]; rfl
  have h4' : noSep ('\x7b' :: stringifyFields l ++ ['\x7d']) = true := by
    rw [hout] at h4
    exact h4
  have hdata : (serializeListCommand name cmd).data =
      name.data ++ ':' :: ':' :: ((cmdType cmd).data ++
        ':' :: ':' :: ('\x7b' :: stringifyFields l ++ ['\x7d'])) := by
    show (name ++ "::" ++ cmdType cmd ++ "::" ++
      String.mk ((stringifyVal (cmdPayload cmd)).getD [])).data = _
    rw [hout]
    simp [String.data_append]
  obtain ⟨t, ht, hT1, hT2⟩ : ∃ t : String, cmdType cmd = t ∧
      noSep t.data = true ∧ t.data.getLast? ≠ some ':' := by
    cases cmd
    · exact ⟨"prepend", rfl, by decide, by decide⟩
    · exact ⟨"append", rfl, by decide, by decide⟩
    · exact ⟨"replace", rfl, by decide, by decide⟩
    · exact ⟨"remove", rfl, by decide, by decide⟩
    · exact ⟨"reorder", rfl, by decide, by decide⟩
  rw [ht] at hdata ⊢
  have hsplit : splitSep (serializeListCommand name cmd).data =
      name.data :: t.data ::
        [('\x7b' :: stringifyFields l ++ ['\x7d'])] := by
    rw [hdata, splitSep_append_sep _ _ h1 h2, splitSep_append_sep _ _ hT1 hT2,
      splitSep_noSep _ h4']
  have hpj : parseJson (String.mk ('\x7b' :: stringifyFields l ++ ['\x7d'])) =
      some (cmdPayload cmd) :=
    parseJson_stringify (cmdPayload cmd) _ h3 hout
  simp only [parseListCommand, hsplit, hpj]

/-- Concrete instance of the amended C1 round trip: removing index 0 from
the list `'tasks'` survives serialization and parsing. -/
theorem serialize_parse_round_trip_witness :
    parseListCommand (serializeListCommand "tasks" (ListCommand.remove 0)) =
      Except.ok ("tasks", cmdType (ListCommand.remove 0),
        cmdPayload (ListCommand.remove 0)) :=
  serialize_parse_round_trip "tasks" (ListCommand.remove 0) (by decide)
    (by decide) (by decide) (by decide)

/-- Claim C3 (counterexample): in the newer revision a failing command does
produce a rejected submission, but the message is placed under the
top-level `message` key of the error tree, not under the reserved
`__conform__` key: parsing an entry set whose command is the malformed
string `'x'` rejects with `[('message', 'SyntaxError')]`, and the error
list has no `__conform__` entry at all. -/
theorem parse_error_key_cex :
    parse [(commandKey, JsVal.str "x")] =
      (Submission.rejected (JsVal.obj []) [("message", "SyntaxError")], []) ∧
    ∀ err : List (String × String),
      (parse [(commandKey, JsVal.str "x")]).1 =
          Submission.rejected (JsVal.obj []) err →
      err.lookup "__conform__" = none := by
  refine ⟨rfl, ?_⟩
  intro err h
  rw [show (parse [(commandKey, JsVal.str "x")]).1 =
      Submission.rejected (JsVal.obj []) [("message", "SyntaxError")]
      from rfl] at h
  injection h with _ h2
  rw [← h2]
  rfl

/-- Claim C3 (amended): when the command entry is present and truthy and
handling it fails, neither revision lets the failure escape as an
exception, and each returns a rejected submission carrying the message —
the newer revision under the error tree's `message` key (never under
`__conform__`), the older revision under the `__conform__` key. -/
theorem parse_command_error_placement
    (payload : List (String × JsVal)) (c : JsVal) (value value' : JsVal)
    (e e' : String)
    (h1 : firstGet payload commandKey = some c)
    (h2 : truthy c = true) :
    (buildValue (JsVal.obj []) (deleteAll payload commandKey) = (value, none) →
      handleCommand value c = Except.error e →
      parse payload =
        (Submission.rejected value [("message", e)],
          deleteAll payload commandKey) ∧
      ([("message", e)] : List (String × String)).lookup "__conform__" = none)
    ∧ (transform (deleteAll payload commandKey) = (value', none) →
      Legacy.handleCommand value' c = Except.error e' →
      Legacy.parse payload =
        (some (Submission.rejected value' [("__conform__", e')]),
          deleteAll payload commandKey)) := by
  constructor
  · intro h3 h4
    refine ⟨?_, rfl⟩
    simp only [parse, h1, h2, if_true, h3, h4]
  · intro h3 h4
    simp only [Legacy.parse, h1, h2, if_true, h3, h4]

/-- Concrete instance of the amended C3 behaviour: with the single entry
`__conform__ = 'x'` the newer revision rejects with the message under
`message`, the older with the (empty) message under `__conform__`. -/
theorem parse_command_error_placement_witness :
    parse [(commandKey, JsVal.str "x")] =
      (Submission.rejected (JsVal.obj []) [("message", "SyntaxError")], []) ∧
    Legacy.parse [(commandKey, JsVal.str "x")] =
      (some (Submission.rejected (JsVal.obj []) [("__conform__", "")]), []) := by
  have h := parse_command_error_placement [(commandKey, JsVal.str "x")]
    (JsVal.str "x") (JsVal.obj []) (JsVal.obj []) "SyntaxError" "" rfl rfl
  exact ⟨(h.1 rfl rfl).1, h.2 rfl rfl⟩
